import Mathlib

/-! # Formal model of the bzr dirstate helpers and the B-tree leaf codec

This file is a shallow embedding, over `List Nat` byte strings, of the
Pyrex sources of the dirstate helper module and of
`bzrlib/_btree_serializer_pyx.pyx`:

* `_cmp_by_dirs` / `cmp_by_dirs_c` — directory-wise path comparison;
* `_cmp_path_by_dirblock` and the two path bisection primitives
  `_bisect_path_left_c` / `_bisect_path_right_c`;
* the `Reader` class (`get_next`, `_init`, `_get_entry`,
  `_parse_dirblocks`) for the dirstate record format;
* `_flatten_node` and `BTreeLeafParser` (`extract_key`, `process_line`,
  `parse`) of the B-tree leaf codec.

Bytes are `Nat` values: `0` is NUL, `9` is TAB, `10` is LF, `13` is CR and
`47` is the path separator `/`.  Python plain strings are `List Nat`.
Pointer scans (`memchr`, `_my_memrchr`) become `splitFirst` / `splitLast`.
Loops that are not structurally recursive take an explicit fuel argument
which callers instantiate with a bound that suffices for every terminating
run of the C code; running out of fuel produces a result that is proved or
known unreachable in those runs.  Memory-sharing fast paths of the sources
(string interning, the `sha1:` and `" 0 0"` special cases, directory-name
object reuse) are transparent by value and are modelled by the value they
produce.
-/

namespace Bzr

/-- A Python 2 plain string: a sequence of bytes, each an unsigned value
(the sources compare `unsigned char`). -/
abbrev Str := List Nat

/-! ## Byte scanning primitives

`splitFirst c l` models `memchr(s, c, n)`: it returns the bytes before the
first occurrence of `c` and the bytes after it, or `none` when `c` does not
occur.  `splitLast c l` models `_my_memrchr` the same way for the last
occurrence. -/

/-- Split a byte string at the first occurrence of `c` (model of `memchr`). -/
def splitFirst (c : Nat) : List Nat → Option (List Nat × List Nat)
  | [] => none
  | a :: as =>
    if a = c then some ([], as)
    else
      match splitFirst c as with
      | none => none
      | some (x, y) => some (a :: x, y)

/-- Split a byte string at the last occurrence of `c` (model of `_my_memrchr`). -/
def splitLast (c : Nat) : List Nat → Option (List Nat × List Nat)
  | [] => none
  | a :: as =>
    match splitLast c as with
    | some (x, y) => some (a :: x, y)
    | none => if a = c then some ([], as) else none

theorem splitFirst_eq_none {c : Nat} {l : List Nat} (h : c ∉ l) :
    splitFirst c l = none := by
  induction l with
  | nil => rfl
  | cons a as ih =>
    simp only [List.mem_cons, not_or] at h
    simp [splitFirst, Ne.symm h.1, ih h.2]

theorem splitFirst_append {c : Nat} {l : List Nat} (h : c ∉ l) (r : List Nat) :
    splitFirst c (l ++ c :: r) = some (l, r) := by
  induction l with
  | nil => simp [splitFirst]
  | cons a as ih =>
    simp only [List.mem_cons, not_or] at h
    simp [splitFirst, Ne.symm h.1, ih h.2]

theorem splitFirst_some {c : Nat} {l x y : List Nat}
    (h : splitFirst c l = some (x, y)) : l = x ++ c :: y ∧ c ∉ x := by
  induction l generalizing x y with
  | nil => simp [splitFirst] at h
  | cons a as ih =>
    by_cases hac : a = c
    · simp [splitFirst, hac] at h
      simp [h.1, ← h.2, hac]
    · simp only [splitFirst, if_neg hac] at h
      cases hsp : splitFirst c as with
      | none => rw [hsp] at h; simp at h
      | some p =>
        obtain ⟨x0, y0⟩ := p
        rw [hsp] at h
        simp only [Option.some.injEq, Prod.mk.injEq] at h
        obtain ⟨hx, hy⟩ := h
        obtain ⟨has, hnx⟩ := ih hsp
        subst hx hy
        constructor
        · simp [has]
        · simp [hnx]
          exact fun hh => hac hh.symm

theorem splitLast_eq_none {c : Nat} {l : List Nat} (h : c ∉ l) :
    splitLast c l = none := by
  induction l with
  | nil => rfl
  | cons a as ih =>
    simp only [List.mem_cons, not_or] at h
    simp [splitLast, ih h.2, Ne.symm h.1]

theorem splitLast_append {c : Nat} {l r : List Nat} (h : c ∉ r) :
    splitLast c (l ++ c :: r) = some (l, r) := by
  induction l with
  | nil => simp [splitLast, splitLast_eq_none h]
  | cons a as ih => simp [splitLast, ih]

theorem splitLast_none {c : Nat} {l : List Nat} (h : splitLast c l = none) :
    c ∉ l := by
  induction l with
  | nil => simp
  | cons a as ih =>
    simp only [splitLast] at h
    cases hsp : splitLast c as with
    | some p => rw [hsp] at h; simp at h
    | none =>
      rw [hsp] at h
      by_cases hac : a = c
      · simp [if_pos hac] at h
      · simp [hac] at h ⊢
        exact ⟨fun hh => hac hh.symm, ih hsp⟩

theorem splitLast_some {c : Nat} {l x y : List Nat}
    (h : splitLast c l = some (x, y)) : l = x ++ c :: y ∧ c ∉ y := by
  induction l generalizing x y with
  | nil => simp [splitLast] at h
  | cons a as ih =>
    simp only [splitLast] at h
    cases hsp : splitLast c as with
    | some p =>
      obtain ⟨x0, y0⟩ := p
      rw [hsp] at h
      simp only [Option.some.injEq, Prod.mk.injEq] at h
      obtain ⟨hx, hy⟩ := h
      obtain ⟨has, hny⟩ := ih hsp
      subst hx hy
      simp [has, hny]
    | none =>
      rw [hsp] at h
      by_cases hac : a = c
      · simp only [if_pos hac] at h
        simp only [Option.some.injEq, Prod.mk.injEq] at h
        obtain ⟨hx, hy⟩ := h
        subst hx hy
        simpa [hac] using splitLast_none hsp
      · simp [if_neg hac] at h

/-! ## Path ordering: `_cmp_by_dirs`

The byte-wise loop of `_cmp_by_dirs`.  The aligned word-at-a-time loop of
the source only skips over chunks whose four bytes are pairwise equal, so
it reaches the same first differing byte as the plain byte loop and is not
modelled separately (it is a memory-layout optimisation).  The
`path1 == path2 and size1 == size2` pointer-identity fast path returns `0`
exactly when the byte-wise loop would, hence it is also transparent. -/

/-- Model of `_cmp_by_dirs`: scan both strings; on the first differing byte
the side holding `/` (47) sorts first, otherwise unsigned byte order
decides; a strict prefix sorts first. -/
def cmp_by_dirs : Str → Str → Int
  | [], [] => 0
  | [], _ :: _ => -1
  | _ :: _, [] => 1
  | a :: as, b :: bs =>
    if a = b then cmp_by_dirs as bs
    else if a = 47 then -1
    else if b = 47 then 1
    else if a < b then -1
    else 1

/-- Python 2 plain-string comparison: byte-wise lexicographic, a strict
prefix sorts first.  Only the sign is relevant; the model returns
`-1`, `0` or `1`. -/
def lexCmpNats : Str → Str → Int
  | [], [] => 0
  | [], _ :: _ => -1
  | _ :: _, [] => 1
  | a :: as, b :: bs =>
    if a < b then -1
    else if b < a then 1
    else lexCmpNats as bs

/-- Python 2 list comparison specialised to lists of plain strings:
element-wise by `lexCmpNats`, then by length. -/
def lexCmpList : List Str → List Str → Int
  | [], [] => 0
  | [], _ :: _ => -1
  | _ :: _, [] => 1
  | x :: xs, y :: ys =>
    if lexCmpNats x y = 0 then lexCmpList xs ys else lexCmpNats x y

/-- Python's `s.split('/')` on byte strings: `"" ↦ [""]`,
`"a/b" ↦ ["a", "b"]`, with empty components preserved. -/
def splitSlash : Str → List Str
  | [] => [[]]
  | c :: rest =>
    if c = 47 then [] :: splitSlash rest
    else
      match splitSlash rest with
      | [] => [[c]]
      | h :: t => (c :: h) :: t

theorem splitSlash_ne_nil (s : Str) : splitSlash s ≠ [] := by
  cases s with
  | nil => simp [splitSlash]
  | cons c rest =>
    by_cases hc : c = 47
    · simp [splitSlash, hc]
    · simp only [splitSlash, if_neg hc]
      cases splitSlash rest <;> simp

/-- The heart of claim C1: `_cmp_by_dirs` computes exactly the Python 2
comparison of the `/`-split component lists. -/
theorem cmp_by_dirs_eq_lex (p q : Str) :
    cmp_by_dirs p q = lexCmpList (splitSlash p) (splitSlash q) := by
  induction p generalizing q with
  | nil =>
    cases q with
    | nil => simp [cmp_by_dirs, splitSlash, lexCmpList, lexCmpNats]
    | cons b bs =>
      by_cases hb : b = 47
      · have hne := splitSlash_ne_nil bs
        cases hq : splitSlash bs with
        | nil => exact absurd hq hne
        | cons h t =>
          simp [cmp_by_dirs, splitSlash, hb, hq, lexCmpList, lexCmpNats]
      · cases hq : splitSlash bs with
        | nil => exact absurd hq (splitSlash_ne_nil bs)
        | cons h t =>
          simp [cmp_by_dirs, splitSlash, hb, hq, lexCmpList, lexCmpNats]
  | cons a as ih =>
    cases q with
    | nil =>
      by_cases ha : a = 47
      · cases hp : splitSlash as with
        | nil => exact absurd hp (splitSlash_ne_nil as)
        | cons h t =>
          simp [cmp_by_dirs, splitSlash, ha, hp, lexCmpList, lexCmpNats]
      · cases hp : splitSlash as with
        | nil => exact absurd hp (splitSlash_ne_nil as)
        | cons h t =>
          simp [cmp_by_dirs, splitSlash, ha, hp, lexCmpList, lexCmpNats]
    | cons b bs =>
      by_cases hab : a = b
      · subst hab
        by_cases ha : a = 47
        · simpa [cmp_by_dirs, splitSlash, ha, lexCmpList, lexCmpNats]
            using ih bs
        · cases hp : splitSlash as with
          | nil => exact absurd hp (splitSlash_ne_nil as)
          | cons h1 t1 =>
            cases hq : splitSlash bs with
            | nil => exact absurd hq (splitSlash_ne_nil bs)
            | cons h2 t2 =>
              have := ih bs
              rw [hp, hq] at this
              simp only [cmp_by_dirs, splitSlash, if_neg ha, hp, hq, if_pos rfl]
              rw [this]
              simp [lexCmpList, lexCmpNats]
      · by_cases ha : a = 47
        · subst ha
          have hb : b ≠ 47 := fun hh => hab hh.symm
          cases hq : splitSlash bs with
          | nil => exact absurd hq (splitSlash_ne_nil bs)
          | cons h2 t2 =>
            simp [cmp_by_dirs, splitSlash, hab, hb, hq, lexCmpList, lexCmpNats]
        · by_cases hb : b = 47
          · subst hb
            cases hp : splitSlash as with
            | nil => exact absurd hp (splitSlash_ne_nil as)
            | cons h1 t1 =>
              simp [cmp_by_dirs, splitSlash, hab, ha, hp, lexCmpList, lexCmpNats]
          · cases hp : splitSlash as with
            | nil => exact absurd hp (splitSlash_ne_nil as)
            | cons h1 t1 =>
              cases hq : splitSlash bs with
              | nil => exact absurd hq (splitSlash_ne_nil bs)
              | cons h2 t2 =>
                rcases Nat.lt_trichotomy a b with hlt | heq | hgt
                · simp [cmp_by_dirs, splitSlash, hab, ha, hb, hp, hq,
                    lexCmpList, lexCmpNats, hlt]
                · exact absurd heq hab
                · have hnlt : ¬a < b := by omega
                  simp [cmp_by_dirs, splitSlash, hab, ha, hb, hp, hq,
                    lexCmpList, lexCmpNats, hnlt, hgt]

theorem cmp_by_dirs_antisym (p q : Str) : cmp_by_dirs p q = -cmp_by_dirs q p := by
  induction p generalizing q with
  | nil => cases q <;> simp [cmp_by_dirs]
  | cons a as ih =>
    cases q with
    | nil => simp [cmp_by_dirs]
    | cons b bs =>
      by_cases hab : a = b
      · subst hab
        simpa [cmp_by_dirs] using ih bs
      · have hba : b ≠ a := fun hh => hab hh.symm
        by_cases ha : a = 47
        · subst ha
          simp [cmp_by_dirs, hab, hba, fun hh : b = 47 => hba hh]
        · by_cases hb : b = 47
          · subst hb
            simp [cmp_by_dirs, hab, hba, ha]
          · rcases Nat.lt_trichotomy a b with hlt | heq | hgt
            · have : ¬b < a := by omega
              simp [cmp_by_dirs, hab, hba, ha, hb, hlt, this]
            · exact absurd heq hab
            · have : ¬a < b := by omega
              simp [cmp_by_dirs, hab, hba, ha, hb, hgt, this]

/-! ### Comparator laws for the lexicographic comparisons -/

theorem lexCmpNats_refl (x : Str) : lexCmpNats x x = 0 := by
  induction x with
  | nil => rfl
  | cons a as ih => simp [lexCmpNats, ih]

theorem lexCmpNats_antisym (x y : Str) : lexCmpNats x y = -lexCmpNats y x := by
  induction x generalizing y with
  | nil => cases y <;> simp [lexCmpNats]
  | cons a as ih =>
    cases y with
    | nil => simp [lexCmpNats]
    | cons b bs =>
      rcases Nat.lt_trichotomy a b with h | h | h
      · have : ¬b < a := by omega
        simp [lexCmpNats, h, this]
      · subst h
        simpa [lexCmpNats] using ih bs
      · have : ¬a < b := by omega
        simp [lexCmpNats, h, this]

theorem lexCmpNats_eq_zero {x y : Str} : lexCmpNats x y = 0 ↔ x = y := by
  constructor
  · intro h
    induction x generalizing y with
    | nil => cases y with
      | nil => rfl
      | cons b bs => simp [lexCmpNats] at h
    | cons a as ih =>
      cases y with
      | nil => simp [lexCmpNats] at h
      | cons b bs =>
        rcases Nat.lt_trichotomy a b with hl | hl | hl
        · simp [lexCmpNats, hl] at h
        · subst hl
          simp only [lexCmpNats, Nat.lt_irrefl, if_false] at h
          simp [ih h]
        · have h1 : ¬a < b := by omega
          simp [lexCmpNats, h1, hl] at h
  · rintro rfl
    exact lexCmpNats_refl x

theorem lexCmpNats_trans_le {x y z : Str}
    (h1 : lexCmpNats x y ≤ 0) (h2 : lexCmpNats y z ≤ 0) :
    lexCmpNats x z ≤ 0 := by
  induction x generalizing y z with
  | nil => cases z <;> simp [lexCmpNats]
  | cons a as ih =>
    cases y with
    | nil => simp [lexCmpNats] at h1
    | cons b bs =>
      cases z with
      | nil => simp [lexCmpNats] at h2
      | cons c cs =>
        rcases Nat.lt_trichotomy a b with hab | hab | hab
        · rcases Nat.lt_trichotomy b c with hbc | hbc | hbc
          · have h3 : a < c := by omega
            simp [lexCmpNats, h3]
          · subst hbc
            simp [lexCmpNats, hab]
          · have h3 : ¬b < c := by omega
            simp [lexCmpNats, hbc, h3] at h2
        · subst hab
          simp only [lexCmpNats, Nat.lt_irrefl, if_false] at h1
          rcases Nat.lt_trichotomy a c with hac | hac | hac
          · simp [lexCmpNats, hac]
          · subst hac
            simp only [lexCmpNats, Nat.lt_irrefl, if_false] at h2 ⊢
            exact ih h1 h2
          · have h3 : ¬a < c := by omega
            simp [lexCmpNats, hac, h3] at h2
        · have h3 : ¬a < b := by omega
          simp [lexCmpNats, hab, h3] at h1

theorem lexCmpList_refl (x : List Str) : lexCmpList x x = 0 := by
  induction x with
  | nil => rfl
  | cons a as ih => simp [lexCmpList, lexCmpNats_refl, ih]

theorem lexCmpList_antisym (x y : List Str) : lexCmpList x y = -lexCmpList y x := by
  induction x generalizing y with
  | nil => cases y <;> simp [lexCmpList]
  | cons a as ih =>
    cases y with
    | nil => simp [lexCmpList]
    | cons b bs =>
      by_cases h : lexCmpNats a b = 0
      · have h' : lexCmpNats b a = 0 := by
          rw [lexCmpNats_antisym] at h; omega
        simpa [lexCmpList, h, h'] using ih bs
      · have h' : lexCmpNats b a ≠ 0 := by
          rw [lexCmpNats_antisym b a]; omega
        simp only [lexCmpList, if_neg h, if_neg h']
        exact lexCmpNats_antisym a b

theorem lexCmpList_eq_zero {x y : List Str} : lexCmpList x y = 0 ↔ x = y := by
  constructor
  · intro h
    induction x generalizing y with
    | nil => cases y with
      | nil => rfl
      | cons b bs => simp [lexCmpList] at h
    | cons a as ih =>
      cases y with
      | nil => simp [lexCmpList] at h
      | cons b bs =>
        by_cases hab : lexCmpNats a b = 0
        · simp only [lexCmpList, if_pos hab] at h
          rw [lexCmpNats_eq_zero.mp hab, ih h]
        · simp [lexCmpList, hab] at h
  · rintro rfl
    exact lexCmpList_refl x

theorem lexCmpList_trans_le {x y z : List Str}
    (h1 : lexCmpList x y ≤ 0) (h2 : lexCmpList y z ≤ 0) :
    lexCmpList x z ≤ 0 := by
  induction x generalizing y z with
  | nil => cases z <;> simp [lexCmpList]
  | cons a as ih =>
    cases y with
    | nil => simp [lexCmpList] at h1
    | cons b bs =>
      cases z with
      | nil => simp [lexCmpList] at h2
      | cons c cs =>
        by_cases hab : lexCmpNats a b = 0
        · rw [lexCmpNats_eq_zero.mp hab] at h1 ⊢
          simp only [lexCmpList, lexCmpNats_refl, if_pos rfl] at h1
          by_cases hbc : lexCmpNats b c = 0
          · simp only [lexCmpList, if_pos hbc] at h2 ⊢
            exact ih h1 h2
          · simp only [lexCmpList, if_neg hbc] at h2 ⊢
            exact h2
        · simp only [lexCmpList, if_neg hab] at h1
          by_cases hbc : lexCmpNats b c = 0
          · rw [← lexCmpNats_eq_zero.mp hbc]
            simp only [lexCmpList, if_neg hab]
            exact h1
          · simp only [lexCmpList, if_neg hbc] at h2
            have h3 : lexCmpNats a c ≤ 0 := lexCmpNats_trans_le h1 h2
            by_cases hac : lexCmpNats a c = 0
            · have hac' := lexCmpNats_eq_zero.mp hac
              subst hac'
              have h6 : lexCmpNats b a = -lexCmpNats a b := lexCmpNats_antisym b a
              have h5 : lexCmpNats a b = 0 := by omega
              exact absurd h5 hab
            · simp only [lexCmpList, if_neg hac]
              exact h3

/-! ### Comparator laws for `cmp_by_dirs`, inherited through `splitSlash` -/

theorem cmp_by_dirs_refl (p : Str) : cmp_by_dirs p p = 0 := by
  rw [cmp_by_dirs_eq_lex]; exact lexCmpList_refl _

theorem cmp_by_dirs_zero_split {p q : Str} (h : cmp_by_dirs p q = 0) :
    splitSlash p = splitSlash q := by
  rw [cmp_by_dirs_eq_lex] at h
  exact lexCmpList_eq_zero.mp h

theorem cmp_by_dirs_trans_le {p q r : Str}
    (h1 : cmp_by_dirs p q ≤ 0) (h2 : cmp_by_dirs q r ≤ 0) :
    cmp_by_dirs p r ≤ 0 := by
  rw [cmp_by_dirs_eq_lex] at h1 h2 ⊢
  exact lexCmpList_trans_le h1 h2

theorem cmp_by_dirs_congr_left {d1 d2 : Str} (h : cmp_by_dirs d1 d2 = 0)
    (d3 : Str) : cmp_by_dirs d1 d3 = cmp_by_dirs d2 d3 := by
  rw [cmp_by_dirs_eq_lex, cmp_by_dirs_eq_lex, cmp_by_dirs_zero_split h]

theorem cmp_by_dirs_trans_lt {p q r : Str}
    (h1 : cmp_by_dirs p q < 0) (h2 : cmp_by_dirs q r < 0) :
    cmp_by_dirs p r < 0 := by
  have hle : cmp_by_dirs p r ≤ 0 :=
    cmp_by_dirs_trans_le (le_of_lt h1) (le_of_lt h2)
  rcases lt_or_eq_of_le hle with h | h
  · exact h
  · exfalso
    have hsub := cmp_by_dirs_congr_left h q
    rw [cmp_by_dirs_antisym r q] at hsub
    omega

/-! ## `_cmp_path_by_dirblock` -/

/-- Split a path at its last `/` into (dirname, basename), as
`_cmp_path_by_dirblock` does with `_my_memrchr`: when there is no
separator the dirname is empty and the basename is the whole path. -/
def splitLastSlash (p : Str) : Str × Str :=
  match splitLast 47 p with
  | none => ([], p)
  | some (d, b) => (d, b)

/-- Model of `_cmp_path_by_dirblock`: compare dirnames with `cmp_by_dirs`,
then basenames byte-wise (`memcmp` over the shorter length, then by
length — which is `lexCmpNats` up to sign, and only the sign of the
result is used).  The two length-zero special cases of the source are
kept; its pointer-identity fast path is value-transparent. -/
def cmp_path_by_dirblock (p1 p2 : Str) : Int :=
  if p1 = [] ∧ p2 = [] then 0
  else if p1 = [] then -1
  else if p2 = [] then 1
  else
    if cmp_by_dirs (splitLastSlash p1).1 (splitLastSlash p2).1 = 0 then
      lexCmpNats (splitLastSlash p1).2 (splitLastSlash p2).2
    else
      cmp_by_dirs (splitLastSlash p1).1 (splitLastSlash p2).1

theorem cmp_path_refl (p : Str) : cmp_path_by_dirblock p p = 0 := by
  by_cases hp : p = []
  · simp [cmp_path_by_dirblock, hp]
  · simp [cmp_path_by_dirblock, hp, cmp_by_dirs_refl, lexCmpNats_refl]

theorem cmp_path_antisym (p q : Str) :
    cmp_path_by_dirblock p q = -cmp_path_by_dirblock q p := by
  by_cases hp : p = []
  · by_cases hq : q = [] <;> simp [cmp_path_by_dirblock, hp, hq]
  · by_cases hq : q = []
    · simp [cmp_path_by_dirblock, hp, hq]
    · by_cases hd : cmp_by_dirs (splitLastSlash p).1 (splitLastSlash q).1 = 0
      · have hd' : cmp_by_dirs (splitLastSlash q).1 (splitLastSlash p).1 = 0 := by
          rw [cmp_by_dirs_antisym]; omega
        have hb := lexCmpNats_antisym (splitLastSlash p).2 (splitLastSlash q).2
        simp [cmp_path_by_dirblock, hp, hq, hd, hd']
        omega
      · have hd' : cmp_by_dirs (splitLastSlash q).1 (splitLastSlash p).1 ≠ 0 := by
          rw [cmp_by_dirs_antisym]; omega
        simp [cmp_path_by_dirblock, hp, hq, hd, hd']
        rw [cmp_by_dirs_antisym]

theorem cmp_path_eq_general {p q : Str} (hp : p ≠ []) (hq : q ≠ []) :
    cmp_path_by_dirblock p q =
      if cmp_by_dirs (splitLastSlash p).1 (splitLastSlash q).1 = 0 then
        lexCmpNats (splitLastSlash p).2 (splitLastSlash q).2
      else cmp_by_dirs (splitLastSlash p).1 (splitLastSlash q).1 := by
  unfold cmp_path_by_dirblock
  rw [if_neg (fun hand => hp hand.1), if_neg hp, if_neg hq]

theorem cmp_path_trans_le {p q r : Str}
    (h1 : cmp_path_by_dirblock p q ≤ 0) (h2 : cmp_path_by_dirblock q r ≤ 0) :
    cmp_path_by_dirblock p r ≤ 0 := by
  by_cases hp : p = []
  · by_cases hr : r = [] <;> simp [cmp_path_by_dirblock, hp, hr]
  · by_cases hq : q = []
    · exfalso
      have he : cmp_path_by_dirblock p q = 1 := by
        simp [cmp_path_by_dirblock, hp, hq]
      omega
    · by_cases hr : r = []
      · exfalso
        have he : cmp_path_by_dirblock q r = 1 := by
          simp [cmp_path_by_dirblock, hq, hr]
        omega
      · rw [cmp_path_eq_general hp hq] at h1
        rw [cmp_path_eq_general hq hr] at h2
        rw [cmp_path_eq_general hp hr]
        by_cases hd1 : cmp_by_dirs (splitLastSlash p).1 (splitLastSlash q).1 = 0
        · rw [if_pos hd1] at h1
          by_cases hd2 : cmp_by_dirs (splitLastSlash q).1 (splitLastSlash r).1 = 0
          · rw [if_pos hd2] at h2
            have hd3 : cmp_by_dirs (splitLastSlash p).1 (splitLastSlash r).1 = 0 := by
              rw [cmp_by_dirs_congr_left hd1]; exact hd2
            rw [if_pos hd3]
            exact lexCmpNats_trans_le h1 h2
          · rw [if_neg hd2] at h2
            have hd3 : cmp_by_dirs (splitLastSlash p).1 (splitLastSlash r).1 =
                cmp_by_dirs (splitLastSlash q).1 (splitLastSlash r).1 :=
              cmp_by_dirs_congr_left hd1 _
            rw [if_neg (by omega), hd3]
            exact h2
        · rw [if_neg hd1] at h1
          by_cases hd2 : cmp_by_dirs (splitLastSlash q).1 (splitLastSlash r).1 = 0
          · have hd2x : cmp_by_dirs (splitLastSlash r).1 (splitLastSlash q).1 = 0 := by
              rw [cmp_by_dirs_antisym]; omega
            have e1 := cmp_by_dirs_congr_left hd2x (splitLastSlash p).1
            have e2 := cmp_by_dirs_antisym (splitLastSlash p).1 (splitLastSlash r).1
            have e3 := cmp_by_dirs_antisym (splitLastSlash p).1 (splitLastSlash q).1
            have hd3 : cmp_by_dirs (splitLastSlash p).1 (splitLastSlash r).1 =
                cmp_by_dirs (splitLastSlash p).1 (splitLastSlash q).1 := by omega
            rw [if_neg (by omega), hd3]
            exact h1
          · rw [if_neg hd2] at h2
            have hlt1 : cmp_by_dirs (splitLastSlash p).1 (splitLastSlash q).1 < 0 := by
              omega
            have hlt2 : cmp_by_dirs (splitLastSlash q).1 (splitLastSlash r).1 < 0 := by
              omega
            have hd3 := cmp_by_dirs_trans_lt hlt1 hlt2
            rw [if_neg (by omega)]
            omega

theorem cmp_path_lt_of_le_of_lt {a b t : Str}
    (h1 : cmp_path_by_dirblock a b ≤ 0) (h2 : cmp_path_by_dirblock b t < 0) :
    cmp_path_by_dirblock a t < 0 := by
  by_contra hcon
  push_neg at hcon
  have hta : cmp_path_by_dirblock t a ≤ 0 := by
    rw [cmp_path_antisym]; omega
  have htb : cmp_path_by_dirblock t b ≤ 0 := cmp_path_trans_le hta h1
  rw [cmp_path_antisym] at htb
  omega

theorem cmp_path_lt_of_lt_of_le {a b t : Str}
    (h1 : cmp_path_by_dirblock a b < 0) (h2 : cmp_path_by_dirblock b t ≤ 0) :
    cmp_path_by_dirblock a t < 0 := by
  by_contra hcon
  push_neg at hcon
  have hta : cmp_path_by_dirblock t a ≤ 0 := by
    rw [cmp_path_antisym]; omega
  have hba : cmp_path_by_dirblock b a ≤ 0 := cmp_path_trans_le h2 hta
  rw [cmp_path_antisym] at hba
  omega

/-! ## Bisection primitives -/

/-- The "sorts no later than" relation induced by `_cmp_path_by_dirblock`. -/
def dbLE (a b : Str) : Prop := cmp_path_by_dirblock a b ≤ 0

instance : DecidableRel dbLE := fun a b => by
  unfold dbLE
  infer_instance

/-- A path list sorted for the bisection primitives: every earlier element
compares `≤ 0` against every later one under `_cmp_path_by_dirblock`. -/
def sortedByDirblock (S : List Str) : Prop := List.Pairwise dbLE S

instance (S : List Str) : Decidable (sortedByDirblock S) := by
  unfold sortedByDirblock
  infer_instance

theorem sorted_getD {S : List Str} (hs : sortedByDirblock S) {i j : Nat}
    (hij : i < j) (hj : j < S.length) :
    cmp_path_by_dirblock (S.getD i []) (S.getD j []) ≤ 0 := by
  have hi : i < S.length := Nat.lt_trans hij hj
  rw [List.getD_eq_getElem _ _ hi, List.getD_eq_getElem _ _ hj]
  exact List.pairwise_iff_getElem.mp hs i j hi hj hij

/-- The binary-search loop of `_bisect_path_left_c`.
`(_lo + _hi) / 2` of the source is non-negative C division, which is `Nat`
division here.  `PyList_GET_ITEM(paths, _mid)` is `paths.getD _mid []`:
the loop only reads indices below `paths.length`.  The fuel dominates
`hi - lo`, which strictly shrinks each iteration, so fuel `paths.length`
covers every run of the C loop. -/
def bisectLeftLoop (paths : List Str) (path : Str) : Nat → Nat → Nat → Nat
  | 0, lo, _ => lo
  | fuel + 1, lo, hi =>
    if lo < hi then
      if cmp_path_by_dirblock (paths.getD ((lo + hi) / 2) []) path < 0 then
        bisectLeftLoop paths path fuel ((lo + hi) / 2 + 1) hi
      else
        bisectLeftLoop paths path fuel lo ((lo + hi) / 2)
    else lo

/-- Model of `_bisect_path_left_c`.  Its up-front type checks reject
non-list / non-string arguments, which the embedding's types already
exclude. -/
def bisect_path_left (paths : List Str) (path : Str) : Nat :=
  bisectLeftLoop paths path paths.length 0 paths.length

/-- The binary-search loop of `_bisect_path_right_c`: the comparison runs
with the operands swapped (`path` against the probed element). -/
def bisectRightLoop (paths : List Str) (path : Str) : Nat → Nat → Nat → Nat
  | 0, lo, _ => lo
  | fuel + 1, lo, hi =>
    if lo < hi then
      if cmp_path_by_dirblock path (paths.getD ((lo + hi) / 2) []) < 0 then
        bisectRightLoop paths path fuel lo ((lo + hi) / 2)
      else
        bisectRightLoop paths path fuel ((lo + hi) / 2 + 1) hi
    else lo

/-- Model of `_bisect_path_right_c`. -/
def bisect_path_right (paths : List Str) (path : Str) : Nat :=
  bisectRightLoop paths path paths.length 0 paths.length

theorem bisectLeftLoop_spec (paths : List Str) (path : Str)
    (hs : sortedByDirblock paths) :
    ∀ fuel lo hi, hi ≤ paths.length → lo ≤ hi → hi - lo ≤ fuel →
      (∀ i, i < paths.length → i < lo →
        cmp_path_by_dirblock (paths.getD i []) path < 0) →
      (∀ i, i < paths.length → hi ≤ i →
        0 ≤ cmp_path_by_dirblock (paths.getD i []) path) →
      lo ≤ bisectLeftLoop paths path fuel lo hi ∧
      bisectLeftLoop paths path fuel lo hi ≤ hi ∧
      (∀ i, i < paths.length → i < bisectLeftLoop paths path fuel lo hi →
        cmp_path_by_dirblock (paths.getD i []) path < 0) ∧
      (∀ i, i < paths.length → bisectLeftLoop paths path fuel lo hi ≤ i →
        0 ≤ cmp_path_by_dirblock (paths.getD i []) path) := by
  intro fuel
  induction fuel with
  | zero =>
    intro lo hi hhin hlohi hfuel hlo hhi
    have heq : lo = hi := by omega
    subst heq
    exact ⟨Nat.le_refl _, Nat.le_refl _, hlo, hhi⟩
  | succ fuel ih =>
    intro lo hi hhin hlohi hfuel hlo hhi
    by_cases hlh : lo < hi
    · have hmlo : lo ≤ (lo + hi) / 2 := by omega
      have hmhi : (lo + hi) / 2 < hi := by omega
      by_cases hc : cmp_path_by_dirblock (paths.getD ((lo + hi) / 2) []) path < 0
      · have hres : bisectLeftLoop paths path (fuel + 1) lo hi =
            bisectLeftLoop paths path fuel ((lo + hi) / 2 + 1) hi := by
          simp only [bisectLeftLoop]
          rw [if_pos hlh, if_pos hc]
        rw [hres]
        have hpre : ∀ i, i < paths.length → i < (lo + hi) / 2 + 1 →
            cmp_path_by_dirblock (paths.getD i []) path < 0 := by
          intro i hin hi2
          rcases Nat.lt_or_ge i ((lo + hi) / 2) with h | h
          · exact cmp_path_lt_of_le_of_lt (sorted_getD hs h (by omega)) hc
          · have heq : i = (lo + hi) / 2 := by omega
            rw [heq]
            exact hc
        obtain ⟨ha, hb, hcc, hd⟩ :=
          ih ((lo + hi) / 2 + 1) hi hhin (by omega) (by omega) hpre hhi
        exact ⟨by omega, hb, hcc, hd⟩
      · have hres : bisectLeftLoop paths path (fuel + 1) lo hi =
            bisectLeftLoop paths path fuel lo ((lo + hi) / 2) := by
          simp only [bisectLeftLoop]
          rw [if_pos hlh, if_neg hc]
        rw [hres]
        have hpost : ∀ i, i < paths.length → (lo + hi) / 2 ≤ i →
            0 ≤ cmp_path_by_dirblock (paths.getD i []) path := by
          intro i hin hge
          rcases Nat.eq_or_lt_of_le hge with heq | hlt
          · rw [← heq]
            omega
          · by_contra hneg
            push_neg at hneg
            have hmid := sorted_getD hs hlt hin
            have := cmp_path_lt_of_le_of_lt hmid hneg
            omega
        obtain ⟨ha, hb, hcc, hd⟩ :=
          ih lo ((lo + hi) / 2) (by omega) (by omega) (by omega) hlo hpost
        exact ⟨ha, by omega, hcc, hd⟩
    · have hres : bisectLeftLoop paths path (fuel + 1) lo hi = lo := by
        simp only [bisectLeftLoop]
        rw [if_neg hlh]
      rw [hres]
      exact ⟨Nat.le_refl _, hlohi, hlo, fun i hin hge => hhi i hin (by omega)⟩

theorem bisectRightLoop_spec (paths : List Str) (path : Str)
    (hs : sortedByDirblock paths) :
    ∀ fuel lo hi, hi ≤ paths.length → lo ≤ hi → hi - lo ≤ fuel →
      (∀ i, i < paths.length → i < lo →
        cmp_path_by_dirblock (paths.getD i []) path ≤ 0) →
      (∀ i, i < paths.length → hi ≤ i →
        0 < cmp_path_by_dirblock (paths.getD i []) path) →
      lo ≤ bisectRightLoop paths path fuel lo hi ∧
      bisectRightLoop paths path fuel lo hi ≤ hi ∧
      (∀ i, i < paths.length → i < bisectRightLoop paths path fuel lo hi →
        cmp_path_by_dirblock (paths.getD i []) path ≤ 0) ∧
      (∀ i, i < paths.length → bisectRightLoop paths path fuel lo hi ≤ i →
        0 < cmp_path_by_dirblock (paths.getD i []) path) := by
  intro fuel
  induction fuel with
  | zero =>
    intro lo hi hhin hlohi hfuel hlo hhi
    have heq : lo = hi := by omega
    subst heq
    exact ⟨Nat.le_refl _, Nat.le_refl _, hlo, hhi⟩
  | succ fuel ih =>
    intro lo hi hhin hlohi hfuel hlo hhi
    by_cases hlh : lo < hi
    · have hmlo : lo ≤ (lo + hi) / 2 := by omega
      have hmhi : (lo + hi) / 2 < hi := by omega
      by_cases hc : cmp_path_by_dirblock path (paths.getD ((lo + hi) / 2) []) < 0
      · have hres : bisectRightLoop paths path (fuel + 1) lo hi =
            bisectRightLoop paths path fuel lo ((lo + hi) / 2) := by
          simp only [bisectRightLoop]
          rw [if_pos hlh, if_pos hc]
        rw [hres]
        have hpost : ∀ i, i < paths.length → (lo + hi) / 2 ≤ i →
            0 < cmp_path_by_dirblock (paths.getD i []) path := by
          intro i hin hge
          have hmidpos : 0 < cmp_path_by_dirblock (paths.getD ((lo + hi) / 2) []) path := by
            have hc' := cmp_path_antisym path (paths.getD ((lo + hi) / 2) [])
            omega
          rcases Nat.eq_or_lt_of_le hge with heq | hlt
          · rw [← heq]
            exact hmidpos
          · by_contra hneg
            push_neg at hneg
            have hmid := sorted_getD hs hlt hin
            have := cmp_path_trans_le hmid hneg
            omega
        obtain ⟨ha, hb, hcc, hd⟩ :=
          ih lo ((lo + hi) / 2) (by omega) (by omega) (by omega) hlo hpost
        exact ⟨ha, by omega, hcc, hd⟩
      · have hres : bisectRightLoop paths path (fuel + 1) lo hi =
            bisectRightLoop paths path fuel ((lo + hi) / 2 + 1) hi := by
          simp only [bisectRightLoop]
          rw [if_pos hlh, if_neg hc]
        rw [hres]
        have hpre : ∀ i, i < paths.length → i < (lo + hi) / 2 + 1 →
            cmp_path_by_dirblock (paths.getD i []) path ≤ 0 := by
          intro i hin hi2
          have hmidle : cmp_path_by_dirblock (paths.getD ((lo + hi) / 2) []) path ≤ 0 := by
            have hc' := cmp_path_antisym path (paths.getD ((lo + hi) / 2) [])
            omega
          rcases Nat.lt_or_ge i ((lo + hi) / 2) with h | h
          · exact cmp_path_trans_le (sorted_getD hs h (by omega)) hmidle
          · have heq : i = (lo + hi) / 2 := by omega
            rw [heq]
            exact hmidle
        obtain ⟨ha, hb, hcc, hd⟩ :=
          ih ((lo + hi) / 2 + 1) hi hhin (by omega) (by omega) hpre hhi
        exact ⟨by omega, hb, hcc, hd⟩
    · have hres : bisectRightLoop paths path (fuel + 1) lo hi = lo := by
        simp only [bisectRightLoop]
        rw [if_neg hlh]
      rw [hres]
      exact ⟨Nat.le_refl _, hlohi, hlo, fun i hin hge => hhi i hin (by omega)⟩

/-- Characterisation of `_bisect_path_left_c` on a sorted list. -/
theorem bisect_path_left_spec (paths : List Str) (path : Str)
    (hs : sortedByDirblock paths) :
    bisect_path_left paths path ≤ paths.length ∧
    (∀ i, i < paths.length → i < bisect_path_left paths path →
      cmp_path_by_dirblock (paths.getD i []) path < 0) ∧
    (∀ i, i < paths.length → bisect_path_left paths path ≤ i →
      0 ≤ cmp_path_by_dirblock (paths.getD i []) path) := by
  have h := bisectLeftLoop_spec paths path hs paths.length 0 paths.length
    (Nat.le_refl _) (Nat.zero_le _) (by omega)
    (fun i _ hlt => absurd hlt (Nat.not_lt_zero i))
    (fun i hin hge => absurd hin (by omega))
  exact ⟨h.2.1, h.2.2.1, h.2.2.2⟩

/-- Characterisation of `_bisect_path_right_c` on a sorted list. -/
theorem bisect_path_right_spec (paths : List Str) (path : Str)
    (hs : sortedByDirblock paths) :
    bisect_path_right paths path ≤ paths.length ∧
    (∀ i, i < paths.length → i < bisect_path_right paths path →
      cmp_path_by_dirblock (paths.getD i []) path ≤ 0) ∧
    (∀ i, i < paths.length → bisect_path_right paths path ≤ i →
      0 < cmp_path_by_dirblock (paths.getD i []) path) := by
  have h := bisectRightLoop_spec paths path hs paths.length 0 paths.length
    (Nat.le_refl _) (Nat.zero_le _) (by omega)
    (fun i _ hlt => absurd hlt (Nat.not_lt_zero i))
    (fun i hin hge => absurd hin (by omega))
  exact ⟨h.2.1, h.2.2.1, h.2.2.2⟩

/-- Counting helper: if a predicate is false strictly below `L`, true on
`[L, R)` and false from `R` on, the filtered length is `R - L`. -/
theorem length_filter_span (p : Str → Bool) :
    ∀ (S : List Str) (L R : Nat), L ≤ R → R ≤ S.length →
      (∀ i, i < S.length → i < L → p (S.getD i []) = false) →
      (∀ i, i < S.length → L ≤ i → i < R → p (S.getD i []) = true) →
      (∀ i, i < S.length → R ≤ i → p (S.getD i []) = false) →
      (S.filter p).length = R - L := by
  intro S
  induction S with
  | nil =>
    intro L R hLR hRn _ _ _
    simp only [List.length_nil, Nat.le_zero] at hRn
    subst hRn
    simp only [List.filter_nil, List.length_nil]
    omega
  | cons x S ih =>
    intro L R hLR hRn h1 h2 h3
    cases L with
    | zero =>
      cases R with
      | zero =>
        have hx : p x = false := h3 0 (by simp) (Nat.zero_le _)
        have hstep : List.filter p (x :: S) = List.filter p S := by
          simp [List.filter_cons, hx]
        rw [hstep]
        have hrec := ih 0 0 (Nat.le_refl _) (Nat.zero_le _)
          (fun i hin hlt => absurd hlt (Nat.not_lt_zero i))
          (fun i hin hge hlt => absurd hlt (Nat.not_lt_zero i))
          (fun i hin hge => by
            have := h3 (i + 1) (by simpa using hin) (Nat.zero_le _)
            simpa [List.getD_cons_succ] using this)
        omega
      | succ r =>
        have hx : p x = true := h2 0 (by simp) (Nat.le_refl _) (Nat.succ_pos r)
        have hstep : List.filter p (x :: S) = x :: List.filter p S := by
          simp [List.filter_cons, hx]
        rw [hstep]
        have hrec := ih 0 r (Nat.zero_le _) (by simpa using hRn)
          (fun i hin hlt => absurd hlt (Nat.not_lt_zero i))
          (fun i hin hge hlt => by
            have := h2 (i + 1) (by simpa using hin) (Nat.zero_le _) (by omega)
            simpa [List.getD_cons_succ] using this)
          (fun i hin hge => by
            have := h3 (i + 1) (by simpa using hin) (by omega)
            simpa [List.getD_cons_succ] using this)
        simp only [List.length_cons]
        omega
    | succ l =>
      cases R with
      | zero => omega
      | succ r =>
        have hx : p x = false := h1 0 (by simp) (Nat.succ_pos l)
        have hstep : List.filter p (x :: S) = List.filter p S := by
          simp [List.filter_cons, hx]
        rw [hstep]
        have hrec := ih l r (by omega) (by simpa using hRn)
          (fun i hin hlt => by
            have := h1 (i + 1) (by simpa using hin) (by omega)
            simpa [List.getD_cons_succ] using this)
          (fun i hin hge hlt => by
            have := h2 (i + 1) (by simpa using hin) (by omega) (by omega)
            simpa [List.getD_cons_succ] using this)
          (fun i hin hge => by
            have := h3 (i + 1) (by simpa using hin) (by omega)
            simpa [List.getD_cons_succ] using this)
        omega

theorem insertIdx_eq_take_drop (t : Str) :
    ∀ (I : Nat) (S : List Str), I ≤ S.length →
      List.insertIdx I t S = S.take I ++ t :: S.drop I := by
  intro I
  induction I with
  | zero => intro S _; simp [List.insertIdx_zero]
  | succ n ih =>
    intro S hIn
    cases S with
    | nil => simp at hIn
    | cons x S =>
      simp only [List.insertIdx_succ_cons, List.take_succ_cons, List.drop_succ_cons,
        List.cons_append, List.cons.injEq, true_and]
      exact ih S (by simpa using hIn)

theorem mem_take_index {S : List Str} {I : Nat} {a : Str} (h : a ∈ S.take I) :
    ∃ i, i < S.length ∧ i < I ∧ S.getD i [] = a := by
  obtain ⟨i, hi, hval⟩ := List.mem_iff_getElem.mp h
  have hlen : i < S.length := by
    have := List.length_take I S
    omega
  have hlt : i < I := by
    have := List.length_take I S
    omega
  refine ⟨i, hlen, hlt, ?_⟩
  rw [List.getD_eq_getElem _ _ hlen]
  rw [List.getElem_take] at hval
  exact hval

theorem mem_drop_index {S : List Str} {I : Nat} {a : Str} (h : a ∈ S.drop I) :
    ∃ i, i < S.length ∧ I ≤ i ∧ S.getD i [] = a := by
  obtain ⟨j, hj, hval⟩ := List.mem_iff_getElem.mp h
  have hlen : I + j < S.length := by
    have := List.length_drop I S
    omega
  refine ⟨I + j, hlen, by omega, ?_⟩
  rw [List.getD_eq_getElem _ _ hlen]
  rw [List.getElem_drop] at hval
  exact hval

/-- Inserting `t` at an index that splits the list into a `dbLE t`-below
part and a `dbLE t`-above part keeps the list sorted. -/
theorem sorted_insertIdx {S : List Str} (hs : sortedByDirblock S) {t : Str}
    {I : Nat} (hIn : I ≤ S.length)
    (hbefore : ∀ i, i < S.length → i < I → dbLE (S.getD i []) t)
    (hafter : ∀ i, i < S.length → I ≤ i → dbLE t (S.getD i [])) :
    sortedByDirblock (List.insertIdx I t S) := by
  rw [insertIdx_eq_take_drop t I S hIn]
  unfold sortedByDirblock at hs ⊢
  rw [List.pairwise_append]
  refine ⟨hs.sublist (List.take_sublist I S), ?_, ?_⟩
  · rw [List.pairwise_cons]
    refine ⟨?_, hs.sublist (List.drop_sublist I S)⟩
    intro b hb
    obtain ⟨j, hjn, hjI, hjv⟩ := mem_drop_index hb
    rw [← hjv]
    exact hafter j hjn hjI
  · intro a ha b hb
    obtain ⟨i, hin, hiI, hiv⟩ := mem_take_index ha
    cases hb with
    | head =>
      rw [← hiv]
      exact hbefore i hin hiI
    | tail _ hb =>
      obtain ⟨j, hjn, hjI, hjv⟩ := mem_drop_index hb
      rw [← hiv, ← hjv]
      exact sorted_getD hs (by omega) hjn

/-! ## Dirstate record Reader -/

/-- Failure conditions of the `Reader` methods; each value corresponds to
one `AssertionError` raise site of the source (plus the fuel marker of the
model). -/
inductive GErr where
  /-- `get_next()` called when there are no chars left. -/
  | noChars
  /-- `get_next()` failed to find the trailing NUL. -/
  | noNul
  /-- `_init()`: first field non-empty (dead code in the source, see
  `reader_init`). -/
  | firstNonEmpty
  /-- `_get_entry()`: the trailing field was not a single LF byte. -/
  | badTrailing
  /-- `_parse_dirblocks()`: wrong number of entries read. -/
  | countMismatch
  /-- Fuel exhaustion of the modelled loop; unreachable because every
  iteration consumes at least one byte and the fuel starts at the buffer
  length. -/
  | fuelBug
deriving DecidableEq

/-- Model of `Reader.get_next`: the remaining buffer plays the cursor.  A
NULL cursor cannot occur between calls in the modelled flows, so the first
raise site corresponds to `cur_cstr >= end_cstr` (empty remainder); the
second is `memchr` finding no NUL before the end. -/
def get_next (r : List Nat) : Except GErr (List Nat × List Nat) :=
  match r with
  | [] => .error .noChars
  | _ :: _ =>
    match splitFirst 0 r with
    | none => .error .noNul
    | some (f, rest) => .ok (f, rest)

theorem get_next_ok {r f rest : List Nat} (h : get_next r = .ok (f, rest)) :
    r = f ++ 0 :: rest ∧ 0 ∉ f := by
  cases r with
  | nil => simp [get_next] at h
  | cons a as =>
    simp only [get_next] at h
    cases hsp : splitFirst 0 (a :: as) with
    | none => rw [hsp] at h; simp at h
    | some p =>
      obtain ⟨x, y⟩ := p
      rw [hsp] at h
      simp only [Except.ok.injEq, Prod.mk.injEq] at h
      obtain ⟨rfl, rfl⟩ := h
      exact splitFirst_some hsp

theorem get_next_append {f : List Nat} (h : 0 ∉ f) (rest : List Nat) :
    get_next (f ++ 0 :: rest) = .ok (f, rest) := by
  have hsp := splitFirst_append h rest
  cases f with
  | nil => simp [get_next, splitFirst]
  | cons a as =>
    rw [List.cons_append] at hsp
    simp [get_next, hsp]

/-- Model of `Reader._init`.  The source checks
`if first[0] != c'\0' and size == 0` — but for an empty field `first[0]`
is the NUL terminator itself, so the conjunction is unsatisfiable and the
raise is dead code; the condition is kept verbatim (`headD 0` reads the
byte at the field start, which is the terminator for an empty field). -/
def reader_init (text : List Nat) : Except GErr (List Nat) :=
  match get_next text with
  | .error e => .error e
  | .ok (f, rest) =>
    if f.headD 0 ≠ 0 ∧ f.length = 0 then .error .firstNonEmpty
    else .ok rest

/-- C `strncmp` comparing at most `n` bytes of two NUL-terminated strings;
the end of a modelled list plays the terminator. -/
def c_strncmp : List Nat → List Nat → Nat → Int
  | _, _, 0 => 0
  | [], [], _ + 1 => 0
  | [], b :: _, _ + 1 => if b = 0 then 0 else -(b : Int)
  | a :: _, [], _ + 1 => if a = 0 then 0 else (a : Int)
  | a :: as, b :: bs, n + 1 =>
    if a = b then (if a = 0 then 0 else c_strncmp as bs n)
    else (a : Int) - (b : Int)

/-- Helper loop of `strtoul(nptr, NULL, 10)` on the digit-only size fields
the dirstate writer emits.  The C function additionally skips leading
whitespace, accepts an optional sign and wraps at `ULONG_MAX`; no claim
exercises those cases. -/
def strtoul10go : List Nat → Nat → Nat
  | [], acc => acc
  | c :: cs, acc =>
    if 48 ≤ c ∧ c ≤ 57 then strtoul10go cs (acc * 10 + (c - 48)) else acc

/-- `strtoul(field, NULL, 10)` for the entry size field. -/
def strtoul10 (s : List Nat) : Nat := strtoul10go s 0

/-- One per-tree column set of a dirstate row: minikind, fingerprint,
size, executable flag, and packed stat / revision id. -/
structure TreeCol where
  minikind : List Nat
  fingerprint : List Nat
  size : Nat
  executable : Bool
  info : List Nat
deriving DecidableEq

/-- A dirstate row key: (dirname, basename, file id). -/
abbrev EntryKey := (List Nat) × (List Nat) × (List Nat)

/-- A parsed dirstate row: key plus the per-tree column sets. -/
abbrev Entry := EntryKey × List TreeCol

/-- The per-tree column loop of `_get_entry`: minikind, fingerprint, size
(parsed with `strtoul` base 10), executable (`'y'` = 121 as the first
byte; the terminator for an empty field), info. -/
def read_trees : Nat → List Nat → Except GErr (List TreeCol × List Nat)
  | 0, r => .ok ([], r)
  | n + 1, r =>
    match get_next r with
    | .error e => .error e
    | .ok (mk, r1) =>
      match get_next r1 with
      | .error e => .error e
      | .ok (fp, r2) =>
        match get_next r2 with
        | .error e => .error e
        | .ok (szf, r3) =>
          match get_next r3 with
          | .error e => .error e
          | .ok (exf, r4) =>
            match get_next r4 with
            | .error e => .error e
            | .ok (info, r5) =>
              match read_trees n r5 with
              | .error e => .error e
              | .ok (cols, r6) =>
                .ok (⟨mk, fp, strtoul10 szf, exf.headD 0 == 121, info⟩ :: cols, r6)

/-- The trailing-field check of `_get_entry`
(`if cur_size != 1 or trailing[0] != c'\n': raise`, negated): the row
terminator field must be exactly one byte, the LF; `headD 0` reads the NUL
terminator when the field is empty. -/
def check_trailing (f : List Nat) : Except GErr Unit :=
  if f.length = 1 ∧ f.headD 0 = 10 then .ok () else .error .badTrailing

/-- Model of `Reader._get_entry`.  The dirname comparison is the source's
cheap length check followed by `strncmp` over `cur_size + 1` bytes; when
they match, the shared current dirname object is reused (value-equal to
the field).  Returns the entry, the (possibly new) current dirname, the
new-block flag and the remaining buffer. -/
def get_entry (num_trees : Nat) (cur_dirname : List Nat) (r : List Nat) :
    Except GErr ((Entry × List Nat × Bool) × List Nat) :=
  match get_next r with
  | .error e => .error e
  | .ok (dirname_f, r1) =>
    let same : Bool := dirname_f.length == cur_dirname.length &&
      c_strncmp dirname_f cur_dirname (dirname_f.length + 1) == 0
    let d' := if same then cur_dirname else dirname_f
    match get_next r1 with
    | .error e => .error e
    | .ok (name, r2) =>
      match get_next r2 with
      | .error e => .error e
      | .ok (fileid, r3) =>
        match read_trees num_trees r3 with
        | .error e => .error e
        | .ok (trees, r4) =>
          match get_next r4 with
          | .error e => .error e
          | .ok (trailing, r5) =>
            match check_trailing trailing with
            | .error e => .error e
            | .ok _ => .ok ((((d', name, fileid), trees), d', !same), r5)

theorem get_entry_ok {num_trees : Nat} {cur r : List Nat}
    {en : Entry} {d' : List Nat} {nb : Bool} {r' : List Nat}
    (h : get_entry num_trees cur r = .ok ((en, d', nb), r')) :
    en.1.1 = d' ∧ (nb = false → d' = cur) := by
  unfold get_entry at h
  cases h1 : get_next r with
  | error e => rw [h1] at h; simp at h
  | ok p =>
    obtain ⟨f, r1⟩ := p
    rw [h1] at h
    simp only at h
    cases h2 : get_next r1 with
    | error e => rw [h2] at h; simp at h
    | ok p2 =>
      obtain ⟨name, r2⟩ := p2
      rw [h2] at h
      simp only at h
      cases h3 : get_next r2 with
      | error e => rw [h3] at h; simp at h
      | ok p3 =>
        obtain ⟨fileid, r3⟩ := p3
        rw [h3] at h
        simp only at h
        cases h4 : read_trees num_trees r3 with
        | error e => rw [h4] at h; simp at h
        | ok p4 =>
          obtain ⟨trees, r4⟩ := p4
          rw [h4] at h
          simp only at h
          cases h5 : get_next r4 with
          | error e => rw [h5] at h; simp at h
          | ok p5 =>
            obtain ⟨trailing, r5⟩ := p5
            rw [h5] at h
            simp only at h
            cases h6 : check_trailing trailing with
            | error e => rw [h6] at h; simp at h
            | ok u =>
              rw [h6] at h
              simp only [Except.ok.injEq, Prod.mk.injEq] at h
              obtain ⟨⟨hen, hd, hnb⟩, hr⟩ := h
              constructor
              · rw [← hen]
                exact hd
              · intro hfalse
                have hsame : (f.length == cur.length &&
                    c_strncmp f cur (f.length + 1) == 0) = true := by
                  rw [hfalse] at hnb
                  simpa using hnb
                rw [hsame] at hd
                simpa using hd.symm

/-- Append a row to the last pushed block (the current block of the
source once at least one block has been pushed). -/
def appendLast : List ((List Nat) × List Entry) → Entry → List ((List Nat) × List Entry)
  | [], _ => []
  | [(d, es)], e => [(d, es ++ [e])]
  | b :: b2 :: bs, e => b :: appendLast (b2 :: bs) e

/-- The entry loop of `_parse_dirblocks`.  State: the current dirname, the
rows of block 0, the blocks pushed after the two synthetic empty blocks (to
the last of which rows are appended once it exists), the entry count and
the remaining buffer.  Every successful `_get_entry` consumes at least one
byte, so fuel `text.length` covers every terminating run. -/
def parseLoopF (num_trees : Nat) :
    Nat → List Nat → List Entry → List ((List Nat) × List Entry) → Nat →
    List Nat → Except GErr (List Entry × List ((List Nat) × List Entry) × Nat)
  | _, _, block0, extra, cnt, [] => .ok (block0, extra, cnt)
  | 0, _, _, _, _, _ :: _ => .error .fuelBug
  | fuel + 1, cur, block0, extra, cnt, a :: r =>
    match get_entry num_trees cur (a :: r) with
    | .error e => .error e
    | .ok ((en, d', nb), r') =>
      if nb then
        parseLoopF num_trees fuel d' block0 (extra ++ [(d', [en])]) (cnt + 1) r'
      else if extra.isEmpty then
        parseLoopF num_trees fuel d' (block0 ++ [en]) extra (cnt + 1) r'
      else
        parseLoopF num_trees fuel d' block0 (appendLast extra en) (cnt + 1) r'

/-- Model of `Reader._parse_dirblocks`.  `num_trees` is the value passed to
`_get_entry` (`state._num_present_parents() + 1`), `expected` is
`state._num_entries`.  The final
`state._split_root_dirblock_into_contents()` call belongs to the
`DirState` collaborator outside this module; the returned list is
`state._dirblocks` exactly as this function builds it. -/
def parse_dirblocks (num_trees expected : Nat) (text : List Nat) :
    Except GErr (List ((List Nat) × List Entry)) :=
  match reader_init text with
  | .error e => .error e
  | .ok r =>
    match parseLoopF num_trees text.length [] [] [] 0 r with
    | .error e => .error e
    | .ok (block0, extra, cnt) =>
      if cnt = expected then .ok (([], block0) :: ([], []) :: extra)
      else .error .countMismatch

/-- Total number of rows stored in a block list. -/
def rowsOf (blocks : List ((List Nat) × List Entry)) : Nat :=
  (blocks.map (fun b => b.2.length)).sum

theorem appendLast_rowsOf (extra : List ((List Nat) × List Entry)) (e : Entry)
    (h : extra ≠ []) : rowsOf (appendLast extra e) = rowsOf extra + 1 := by
  induction extra with
  | nil => exact absurd rfl h
  | cons b bs ih =>
    cases bs with
    | nil =>
      obtain ⟨d, es⟩ := b
      simp [appendLast, rowsOf]
    | cons b2 bs2 =>
      have := ih (by simp)
      simp only [appendLast, rowsOf, List.map_cons, List.sum_cons] at this ⊢
      omega

theorem appendLast_ne_nil (extra : List ((List Nat) × List Entry)) (e : Entry)
    (h : extra ≠ []) : appendLast extra e ≠ [] := by
  cases extra with
  | nil => exact absurd rfl h
  | cons b bs =>
    cases bs with
    | nil => obtain ⟨d, es⟩ := b; simp [appendLast]
    | cons b2 bs2 => simp [appendLast]

/-- Row-count invariant of the `_parse_dirblocks` loop: the number of rows
stored grows in lock step with the entry counter. -/
theorem parseLoopF_count (num_trees : Nat) :
    ∀ fuel (cur : List Nat) block0 extra cnt (r : List Nat) b0 ex cnt2,
      parseLoopF num_trees fuel cur block0 extra cnt r = .ok (b0, ex, cnt2) →
      b0.length + rowsOf ex + cnt = block0.length + rowsOf extra + cnt2 := by
  intro fuel
  induction fuel with
  | zero =>
    intro cur block0 extra cnt r b0 ex cnt2 h
    cases r with
    | nil =>
      simp only [parseLoopF, Except.ok.injEq, Prod.mk.injEq] at h
      obtain ⟨rfl, rfl, rfl⟩ := h
      omega
    | cons a as => simp [parseLoopF] at h
  | succ fuel ih =>
    intro cur block0 extra cnt r b0 ex cnt2 h
    cases r with
    | nil =>
      simp only [parseLoopF, Except.ok.injEq, Prod.mk.injEq] at h
      obtain ⟨rfl, rfl, rfl⟩ := h
      omega
    | cons a as =>
      simp only [parseLoopF] at h
      cases hge : get_entry num_trees cur (a :: as) with
      | error e => rw [hge] at h; simp at h
      | ok p =>
        obtain ⟨⟨en, d', nb⟩, r'⟩ := p
        rw [hge] at h
        simp only at h
        by_cases hnb : nb
        · rw [if_pos hnb] at h
          have := ih d' block0 (extra ++ [(d', [en])]) (cnt + 1) r' b0 ex cnt2 h
          simp only [rowsOf, List.map_append, List.sum_append] at this ⊢
          simp at this
          omega
        · rw [if_neg hnb] at h
          by_cases hex : extra.isEmpty
          · rw [if_pos hex] at h
            have := ih d' (block0 ++ [en]) extra (cnt + 1) r' b0 ex cnt2 h
            simp at this
            omega
          · rw [if_neg hex] at h
            have hne : extra ≠ [] := by
              intro hcon
              rw [hcon] at hex
              simp at hex
            have := ih d' block0 (appendLast extra en) (cnt + 1) r' b0 ex cnt2 h
            rw [appendLast_rowsOf extra en hne] at this
            omega

/-- Shape invariant of the `_parse_dirblocks` loop: rows are appended to
block 0 only while no block has been pushed, in which case the current
dirname is still the initial empty string, so every block-0 row carries an
empty dirname. -/
theorem parseLoopF_block0 (num_trees : Nat) :
    ∀ fuel (cur : List Nat) block0 extra cnt (r : List Nat) b0 ex cnt2,
      parseLoopF num_trees fuel cur block0 extra cnt r = .ok (b0, ex, cnt2) →
      (extra = [] → cur = []) →
      (∀ e ∈ block0, e.1.1 = []) →
      (∀ e ∈ b0, e.1.1 = []) := by
  intro fuel
  induction fuel with
  | zero =>
    intro cur block0 extra cnt r b0 ex cnt2 h hcur hb
    cases r with
    | nil =>
      simp only [parseLoopF, Except.ok.injEq, Prod.mk.injEq] at h
      obtain ⟨rfl, rfl, rfl⟩ := h
      exact hb
    | cons a as => simp [parseLoopF] at h
  | succ fuel ih =>
    intro cur block0 extra cnt r b0 ex cnt2 h hcur hb
    cases r with
    | nil =>
      simp only [parseLoopF, Except.ok.injEq, Prod.mk.injEq] at h
      obtain ⟨rfl, rfl, rfl⟩ := h
      exact hb
    | cons a as =>
      simp only [parseLoopF] at h
      cases hge : get_entry num_trees cur (a :: as) with
      | error e => rw [hge] at h; simp at h
      | ok p =>
        obtain ⟨⟨en, d', nb⟩, r'⟩ := p
        rw [hge] at h
        simp only at h
        obtain ⟨hdir, hsame⟩ := get_entry_ok hge
        by_cases hnb : nb
        · rw [if_pos hnb] at h
          exact ih d' block0 (extra ++ [(d', [en])]) (cnt + 1) r' b0 ex cnt2 h
            (by simp) hb
        · rw [if_neg hnb] at h
          by_cases hex : extra.isEmpty
          · rw [if_pos hex] at h
            have hexnil : extra = [] := by
              cases extra with
              | nil => rfl
              | cons x xs => simp at hex
            have hcur0 : cur = [] := hcur hexnil
            have hd0 : d' = [] := by
              rw [hsame (by simpa using hnb), hcur0]
            refine ih d' (block0 ++ [en]) extra (cnt + 1) r' b0 ex cnt2 h
              (fun _ => hd0) ?_
            intro e he
            rcases List.mem_append.mp he with he | he
            · exact hb e he
            · simp only [List.mem_singleton] at he
              rw [he, hdir, hd0]
          · rw [if_neg hex] at h
            have hne : extra ≠ [] := by
              intro hcon
              rw [hcon] at hex
              simp at hex
            exact ih d' block0 (appendLast extra en) (cnt + 1) r' b0 ex cnt2 h
              (fun hcon => absurd hcon (appendLast_ne_nil extra en hne)) hb

/-! ## B-tree leaf codec -/

/-- Join byte strings with a separator (Python's `sep.flatten(parts)`). -/
def joinSep (sep : Str) : List Str → Str
  | [] => []
  | [x] => x
  | x :: y :: ys => x ++ sep ++ joinSep sep (y :: ys)

theorem joinSep_length (sep : Str) :
    ∀ xs : List Str, (joinSep sep xs).length =
      (xs.map List.length).sum + sep.length * (xs.length - 1) := by
  intro xs
  induction xs with
  | nil => simp [joinSep]
  | cons x ys ih =>
    cases ys with
    | nil => simp [joinSep]
    | cons y ys2 =>
      simp only [joinSep, List.length_append, List.map_cons, List.sum_cons,
        List.length_cons, Nat.add_sub_cancel] at ih ⊢
      rw [ih]
      have h4 : sep.length * (ys2.length + 1) = sep.length * ys2.length + sep.length :=
        Nat.mul_succ _ _
      omega

theorem joinSep_length_one (c : Nat) (xs : List Str) :
    (joinSep [c] xs).length = (xs.map List.length).sum + (xs.length - 1) := by
  rw [joinSep_length]
  simp

theorem not_mem_joinSep {c : Nat} {sep : Str} (hsep : c ∉ sep) :
    ∀ {xs : List Str}, (∀ x ∈ xs, c ∉ x) → c ∉ joinSep sep xs := by
  intro xs
  induction xs with
  | nil => intro _; simp [joinSep]
  | cons x ys ih =>
    intro hx
    cases ys with
    | nil =>
      simpa [joinSep] using hx x (by simp)
    | cons y ys2 =>
      simp only [joinSep, List.mem_append, List.mem_cons, not_or]
      refine ⟨⟨hx x (by simp), hsep⟩, ?_⟩
      exact ih (fun z hz => hx z (List.mem_cons_of_mem _ hz))

/-- A Python object as far as `_flatten_node` inspects one: a plain string
or a tuple (built-in `tuple` and `StaticTuple` behave identically in the
checks). -/
inductive PyObj where
  | pstr : Str → PyObj
  | ptup : List PyObj → PyObj

/-- Failure conditions of `_flatten_node`, one per raise site. -/
inductive FErr where
  /-- node is not a tuple / StaticTuple. -/
  | nodeType
  /-- with reference lists, node length is not 4. -/
  | arityWithRefs
  /-- without reference lists, node length is below 3. -/
  | arityNoRefs
  /-- `'\0'.flatten(node[1])` hit a non-string element. -/
  | keyJoin
  /-- a reference is not a tuple / StaticTuple. -/
  | refType
  /-- a reference bit is not a plain string. -/
  | refBitType
  /-- node[2] is not a plain string. -/
  | valueType
deriving DecidableEq

/-- Error-propagating map: the Python `for` loops of `_flatten_node`
abort at the first offending element. -/
def mapME {α β : Type} (f : α → Except FErr β) : List α → Except FErr (List β)
  | [] => .ok []
  | x :: xs =>
    match f x with
    | .error e => .error e
    | .ok y =>
      match mapME f xs with
      | .error e => .error e
      | .ok ys => .ok (y :: ys)

/-- Python's `'\0'.flatten(node[1])`: over a tuple it joins the string
elements (a non-string element raises `TypeError`); over a plain string it
joins the one-byte characters. -/
def joinKeyObj : PyObj → Except FErr Str
  | .pstr s => .ok (joinSep [0] (s.map (fun b => [b])))
  | .ptup ts =>
    match mapME (fun t => match t with
      | .pstr s => Except.ok s
      | .ptup _ => Except.error FErr.keyJoin) ts with
    | .error e => .error e
    | .ok segs => .ok (joinSep [0] segs)

/-- The byte budget of one reference in `_flatten_node`
(`(len - 1)` NUL separators plus the bit lengths; every bit must be a
plain string), together with the extracted bits. -/
def refLenOfRef : PyObj → Except FErr (Nat × List Str)
  | .pstr _ => .error .refType
  | .ptup bits =>
    match mapME (fun b => match b with
      | .pstr s => Except.ok s
      | .ptup _ => Except.error FErr.refBitType) bits with
    | .error e => .error e
    | .ok segs =>
      .ok ((if segs.length = 0 then 0 else segs.length - 1) +
        (segs.map List.length).sum, segs)

/-- The byte budget of one reference list (`(len - 1)` CR separators plus
the reference budgets).  Iterating a plain string yields one-byte strings
which then fail the tuple check on the first reference; the empty string
iterates to nothing. -/
def refLenOfList : PyObj → Except FErr (Nat × List (List Str))
  | .pstr [] => .ok (0, [])
  | .pstr (_ :: _) => .error .refType
  | .ptup refs =>
    match mapME refLenOfRef refs with
    | .error e => .error e
    | .ok pairs =>
      .ok ((if pairs.length = 0 then 0 else pairs.length - 1) +
        (pairs.map (fun p => p.1)).sum, pairs.map (fun p => p.2))

/-- The full reference-area budget of `_flatten_node` (`(len - 1)` TAB
separators plus the list budgets), together with the pure structure the
write-out loop then walks. -/
def refsLenCalc : PyObj → Except FErr (Nat × List (List (List Str)))
  | .pstr [] => .ok (0, [])
  | .pstr (_ :: _) => .error .refType
  | .ptup rls =>
    match mapME refLenOfList rls with
    | .error e => .error e
    | .ok pairs =>
      .ok ((if pairs.length = 0 then 0 else pairs.length - 1) +
        (pairs.map (fun p => p.1)).sum, pairs.map (fun p => p.2))

/-- Serialised form of one reference key: NUL-joined bits. -/
def serRef (r : List Str) : Str := joinSep [0] r

/-- Serialised form of one reference list: CR-joined references. -/
def serList (l : List (List Str)) : Str := joinSep [13] (l.map serRef)

/-- Serialised reference area: TAB-joined reference lists. -/
def serRefs (rls : List (List (List Str))) : Str := joinSep [9] (rls.map serList)

/-- The body of `_flatten_node` after the arity checks: join the key,
budget and extract the reference area, type-check the value, and emit
`key NUL refs NUL value LF` into the exactly-sized buffer.  The write-out
loop produces the TAB/CR/NUL-joined serialisation and runs only when
`refs_len > 0`. -/
def flattenTail (items : List PyObj) (haveRefs : Bool) : Except FErr (Str × Str) :=
  match joinKeyObj (items.getD 1 (.pstr [])) with
  | .error e => .error e
  | .ok string_key =>
    match (if haveRefs then refsLenCalc (items.getD 3 (.pstr []))
           else .ok (0, [])) with
    | .error e => .error e
    | .ok (refs_len, rstruct) =>
      match items.getD 2 (.pstr []) with
      | .pstr value =>
        .ok (string_key,
          string_key ++ [0] ++ (if refs_len > 0 then serRefs rstruct else []) ++
            [0] ++ value ++ [10])
      | .ptup _ => .error .valueType

/-- Model of `_flatten_node`.  `reference_lists` is the caller's reference
list count, which Python truth-tests (`have_reference_lists`). -/
def flatten_node (node : PyObj) (reference_lists : Nat) : Except FErr (Str × Str) :=
  match node with
  | .pstr _ => .error .nodeType
  | .ptup items =>
    if reference_lists ≠ 0 then
      if items.length ≠ 4 then .error .arityWithRefs
      else flattenTail items true
    else
      if items.length < 3 then .error .arityNoRefs
      else flattenTail items false

/-- Failure conditions of `BTreeLeafParser`, one per raise site, plus the
fuel marker of the model. -/
inductive PErr where
  /-- the first non-empty line is not accepted as the header. -/
  | badHeader
  /-- `extract_key`: a key segment separator is missing. -/
  | invalidKey
  /-- no NUL found scanning backwards for the value area. -/
  | noValueArea
  /-- the TAB groups ran out before `ref_list_length`. -/
  | refCount
  /-- `ref_list_length` is 0 but reference bytes are present. -/
  | unexpectedRefData
  /-- fuel exhaustion; only reachable where the C loop diverges
  (`key_length = 0`). -/
  | fuelBug
deriving DecidableEq

/-- Model of `BTreeLeafParser.extract_key` on the byte range up to `last`
(exclusive), given as a list: `key_length` NUL-separated segments; the
final segment may run to `last`, in which case `self._start` ends at
`last + 1`, one byte past the bound — the returned flag records this
overshoot.  Interning and the `sha1:` fast path only affect sharing. -/
def extract_key (key_length : Nat) (seg : List Nat) :
    Except PErr (List Str × List Nat × Bool) :=
  match key_length with
  | 0 => .ok ([], seg, false)
  | 1 =>
    match splitFirst 0 seg with
    | none => .ok ([seg], [], true)
    | some (a, b) => .ok ([a], b, false)
  | k + 2 =>
    match splitFirst 0 seg with
    | none => .error .invalidKey
    | some (a, b) =>
      match extract_key (k + 1) b with
      | .error e => .error e
      | .ok (segs, rest, over) => .ok (a :: segs, rest, over)

/-- The inner reference loop of `process_line` over one group area
(`[self._start, ref_ptr)`): CR-separated keys.  On an overshoot the cursor
skips the CR; otherwise the loop resumes in front of it.  The area shrinks
every iteration as long as `key_length ≥ 1`; with `key_length = 0` the C
loop never advances (divergence), which the fuel models. -/
def parseRefListF (key_length : Nat) : Nat → List Nat → Except PErr (List (List Str))
  | 0, _ => .error .fuelBug
  | fuel + 1, area =>
    if area.isEmpty then .ok []
    else
      match splitFirst 13 area with
      | none =>
        match extract_key key_length area with
        | .error e => .error e
        | .ok (segs, leftover, over) =>
          if over then .ok [segs]
          else
            match parseRefListF key_length fuel leftover with
            | .error e => .error e
            | .ok rest => .ok (segs :: rest)
      | some (keyB, after) =>
        match extract_key key_length keyB with
        | .error e => .error e
        | .ok (segs, leftover, over) =>
          match parseRefListF key_length fuel
              (if over then after else leftover ++ 13 :: after) with
          | .error e => .error e
          | .ok rest => .ok (segs :: rest)

/-- The inner loop with its fuel instantiated. -/
def parseRefList (key_length : Nat) (area : List Nat) : Except PErr (List (List Str)) :=
  parseRefListF key_length (area.length + 1) area

/-- The outer reference-lists loop of `process_line`: `counter` groups
remain; a TAB ends a group; a missing TAB is only allowed for the last
group; bytes after the last group's TAB are skipped (the source sets
`self._start = next_start` and leaves the loop).  The defensive
`last < self._start` guard of the source cannot fire — the cursor never
passes the area end between groups — and has no counterpart here. -/
def parseRefLists (key_length : Nat) : Nat → List Nat → Except PErr (List (List (List Str)))
  | 0, _ => .ok []
  | counter + 1, area =>
    match splitFirst 9 area with
    | none =>
      if counter ≠ 0 then .error .refCount
      else
        match parseRefList key_length area with
        | .error e => .error e
        | .ok g => .ok [g]
    | some (grp, rest) =>
      match parseRefList key_length grp with
      | .error e => .error e
      | .ok g =>
        match parseRefLists key_length counter rest with
        | .error e => .error e
        | .ok gs => .ok (g :: gs)

/-- A parsed leaf entry: key, value, reference lists (empty tuple when
`ref_list_length` is 0). -/
abbrev ParsedEntry := List Str × Str × List (List (List Str))

/-- Parsing of one non-header, non-empty line
(`BTreeLeafParser.process_line` after the header check): extract the key
bounded by the line end, scan backwards for the last NUL to cut out the
value — after a final-segment overshoot `last - self._start` wraps as
`size_t` and `_my_memrchr`'s scan terminates at once, exactly like the
empty leftover here — then parse the reference area, or require it empty
when `ref_list_length` is 0.  The `" 0 0"` interning fast path is
value-transparent. -/
def parse_entry_line (key_length ref_list_length : Nat) (line : List Nat) :
    Except PErr ParsedEntry :=
  match extract_key key_length line with
  | .error e => .error e
  | .ok (key, rest, _) =>
    match splitLast 0 rest with
    | none => .error .noValueArea
    | some (refsArea, value) =>
      if ref_list_length ≠ 0 then
        match parseRefLists key_length ref_list_length refsArea with
        | .error e => .error e
        | .ok rls => .ok (key, value, rls)
      else if refsArea.isEmpty then .ok (key, value, [])
      else .error .unexpectedRefData

/-- One line step of `BTreeLeafParser.parse`: the bytes before the next LF
and the rest after it (everything, when there is no LF). -/
def takeLine (buf : List Nat) : List Nat × List Nat :=
  match splitFirst 10 buf with
  | none => (buf, [])
  | some (line, rest) => (line, rest)

/-- The literal bytes of `type=leaf`. -/
def typeLeafNats : List Nat := [116, 121, 112, 101, 61, 108, 101, 97, 102]

/-- The header test of `process_line`:
`strncmp("type=leaf", self._start, last - self._start) == 0`. -/
def header_ok (line : List Nat) : Bool :=
  c_strncmp typeLeafNats line line.length == 0

/-- The `parse` loop: split lines, skip empty ones, check the header on
the first non-empty line, then parse entry lines, appending to
`self.keys`.  Every iteration consumes at least one byte, so fuel
`bytes.length` covers every run. -/
def parseAllF (key_length ref_list_length : Nat) :
    Nat → Bool → List ParsedEntry → List Nat → Except PErr (List ParsedEntry)
  | _, _, acc, [] => .ok acc
  | 0, _, _, _ :: _ => .error .fuelBug
  | fuel + 1, headerFound, acc, a :: buf =>
    match takeLine (a :: buf) with
    | (line, rest) =>
      if line.isEmpty then
        parseAllF key_length ref_list_length fuel headerFound acc rest
      else if headerFound then
        match parse_entry_line key_length ref_list_length line with
        | .error e => .error e
        | .ok en => parseAllF key_length ref_list_length fuel headerFound (acc ++ [en]) rest
      else if header_ok line then
        parseAllF key_length ref_list_length fuel true acc rest
      else .error .badHeader

/-- Model of `_parse_leaf_lines` / `BTreeLeafParser.parse`. -/
def parse_leaf_lines (bytes : List Nat) (key_length ref_list_length : Nat) :
    Except PErr (List ParsedEntry) :=
  parseAllF key_length ref_list_length (bytes.length + 1) false [] bytes

/-! ## Round trip between `_flatten_node` and `_parse_leaf_lines` -/

/-- A leaf entry for the round trip: key, value, reference lists. -/
structure LeafNode where
  key : List Str
  value : Str
  refs : List (List (List Str))
deriving DecidableEq

/-- Shape and separator-freedom conditions under which the leaf line
format is unambiguous: exactly `K` NUL- and LF-free key segments, a NUL-
and LF-free value, and exactly `RLL` reference lists whose keys have
exactly `K` nonempty segments free of NUL, LF, CR and TAB. -/
def NodeWF (K RLL : Nat) (n : LeafNode) : Prop :=
  n.key.length = K ∧ (∀ s ∈ n.key, 0 ∉ s ∧ 10 ∉ s) ∧
  (0 ∉ n.value ∧ 10 ∉ n.value) ∧
  n.refs.length = RLL ∧
  (∀ rl ∈ n.refs, ∀ r ∈ rl, r.length = K ∧
    ∀ s ∈ r, s ≠ [] ∧ 0 ∉ s ∧ 10 ∉ s ∧ 13 ∉ s ∧ 9 ∉ s)

instance (K RLL : Nat) (n : LeafNode) : Decidable (NodeWF K RLL n) := by
  unfold NodeWF
  infer_instance

/-- The Python rendering of a leaf entry as `_flatten_node` receives it:
`(index, key, value[, refs])`; the index element is never read. -/
def mkNode (RLL : Nat) (n : LeafNode) : PyObj :=
  .ptup ([.pstr [], .ptup (n.key.map .pstr), .pstr n.value] ++
    (if RLL ≠ 0 then
      [.ptup (n.refs.map (fun rl => .ptup (rl.map (fun r => .ptup (r.map .pstr)))))]
     else []))

/-- The line `_flatten_node` emits for a well-formed entry. -/
def flatLine (n : LeafNode) : List Nat :=
  joinSep [0] n.key ++ [0] ++ serRefs n.refs ++ [0] ++ n.value ++ [10]

/-- The parsed form of a leaf entry. -/
def leafOut (n : LeafNode) : ParsedEntry := (n.key, n.value, n.refs)

/-- The header line of a leaf node. -/
def typeLeafLine : List Nat := typeLeafNats ++ [10]

theorem mapME_pstr (err : FErr) (xs : List Str) :
    mapME (fun t => match t with
      | .pstr s => Except.ok s
      | .ptup _ => Except.error err) (xs.map PyObj.pstr) = Except.ok xs := by
  induction xs with
  | nil => rfl
  | cons x xs ih => simp [mapME, ih]

theorem refLenOfRef_render (r : List Str) :
    refLenOfRef (.ptup (r.map .pstr)) = .ok ((serRef r).length, r) := by
  simp only [refLenOfRef, mapME_pstr]
  have hlen := joinSep_length_one 0 r
  simp only [serRef]
  rw [hlen]
  simp only [Except.ok.injEq, Prod.mk.injEq, and_true]
  by_cases h : r.length = 0
  · rw [if_pos h]
    omega
  · rw [if_neg h]
    omega

theorem refLenOfList_render (l : List (List Str)) :
    refLenOfList (.ptup (l.map (fun r => .ptup (r.map .pstr)))) =
      .ok ((serList l).length, l) := by
  simp only [refLenOfList]
  have hmap : mapME refLenOfRef (l.map (fun r => PyObj.ptup (r.map .pstr))) =
      Except.ok (l.map (fun r => ((serRef r).length, r))) := by
    induction l with
    | nil => rfl
    | cons x xs ih => simp [mapME, refLenOfRef_render, ih]
  rw [hmap]
  have hcomp : (l.map (fun r => ((serRef r).length, r))).map (fun p => p.1) =
      (l.map serRef).map List.length := by
    simp only [List.map_map]
    rfl
  have hid : (l.map (fun r => ((serRef r).length, r))).map (fun p => p.2) = l := by
    have hfun : ((fun p : Nat × List Str => p.2) ∘ fun r => ((serRef r).length, r)) =
        fun r : List Str => r := rfl
    rw [List.map_map, hfun, List.map_id']
  simp only [Except.ok.injEq, Prod.mk.injEq]
  refine ⟨?_, hid⟩
  rw [hcomp]
  simp only [serList]
  rw [joinSep_length_one 13 (l.map serRef)]
  simp only [List.length_map]
  by_cases h : l.length = 0
  · rw [if_pos h]
    omega
  · rw [if_neg h]
    omega

theorem refsLenCalc_render (rls : List (List (List Str))) :
    refsLenCalc (.ptup (rls.map (fun rl => .ptup (rl.map (fun r => .ptup (r.map .pstr)))))) =
      .ok ((serRefs rls).length, rls) := by
  simp only [refsLenCalc]
  have hmap : mapME refLenOfList
      (rls.map (fun rl => PyObj.ptup (rl.map (fun r => PyObj.ptup (r.map .pstr))))) =
      Except.ok (rls.map (fun rl => ((serList rl).length, rl))) := by
    induction rls with
    | nil => rfl
    | cons x xs ih => simp [mapME, refLenOfList_render, ih]
  rw [hmap]
  have hcomp : (rls.map (fun rl => ((serList rl).length, rl))).map (fun p => p.1) =
      (rls.map serList).map List.length := by
    simp only [List.map_map]
    rfl
  have hid : (rls.map (fun rl => ((serList rl).length, rl))).map (fun p => p.2) = rls := by
    have hfun : ((fun p : Nat × List (List Str) => p.2) ∘
        fun rl => ((serList rl).length, rl)) = fun rl : List (List Str) => rl := rfl
    rw [List.map_map, hfun, List.map_id']
  simp only [Except.ok.injEq, Prod.mk.injEq]
  refine ⟨?_, hid⟩
  rw [hcomp]
  simp only [serRefs]
  rw [joinSep_length_one 9 (rls.map serList)]
  simp only [List.length_map]
  by_cases h : rls.length = 0
  · rw [if_pos h]
    omega
  · rw [if_neg h]
    omega

theorem flattenTail_norefs (idx : PyObj) (key : List Str) (value : Str)
    (more : List PyObj) :
    flattenTail (idx :: .ptup (key.map .pstr) :: .pstr value :: more) false =
      .ok (joinSep [0] key,
        joinSep [0] key ++ [0] ++ serRefs [] ++ [0] ++ value ++ [10]) := by
  simp only [flattenTail]
  have hget1 : (idx :: PyObj.ptup (key.map .pstr) :: PyObj.pstr value :: more).getD 1
      (.pstr []) = PyObj.ptup (key.map .pstr) := rfl
  have hget2 : (idx :: PyObj.ptup (key.map .pstr) :: PyObj.pstr value :: more).getD 2
      (.pstr []) = PyObj.pstr value := rfl
  rw [hget1, hget2]
  simp only [joinKeyObj, mapME_pstr, Bool.false_eq_true, if_false]
  rfl

theorem flattenTail_refs (idx : PyObj) (key : List Str) (value : Str)
    (refs : List (List (List Str))) :
    flattenTail [idx, .ptup (key.map .pstr), .pstr value,
        .ptup (refs.map (fun rl => .ptup (rl.map (fun r => .ptup (r.map .pstr)))))] true =
      .ok (joinSep [0] key,
        joinSep [0] key ++ [0] ++ serRefs refs ++ [0] ++ value ++ [10]) := by
  simp only [flattenTail]
  have hget1 : ([idx, PyObj.ptup (key.map .pstr), PyObj.pstr value,
      PyObj.ptup (refs.map (fun rl => PyObj.ptup (rl.map (fun r => PyObj.ptup (r.map .pstr)))))]).getD 1
      (.pstr []) = PyObj.ptup (key.map .pstr) := rfl
  have hget2 : ([idx, PyObj.ptup (key.map .pstr), PyObj.pstr value,
      PyObj.ptup (refs.map (fun rl => PyObj.ptup (rl.map (fun r => PyObj.ptup (r.map .pstr)))))]).getD 2
      (.pstr []) = PyObj.pstr value := rfl
  have hget3 : ([idx, PyObj.ptup (key.map .pstr), PyObj.pstr value,
      PyObj.ptup (refs.map (fun rl => PyObj.ptup (rl.map (fun r => PyObj.ptup (r.map .pstr)))))]).getD 3
      (.pstr []) = PyObj.ptup (refs.map (fun rl => PyObj.ptup (rl.map (fun r => PyObj.ptup (r.map .pstr))))) := rfl
  rw [hget1, hget2, hget3]
  simp only [joinKeyObj, mapME_pstr, if_pos rfl, refsLenCalc_render, if_true]
  by_cases hlen : (serRefs refs).length > 0
  · rw [if_pos hlen]
  · rw [if_neg hlen]
    have hnil : serRefs refs = [] := by
      cases hsr : serRefs refs with
      | nil => rfl
      | cons a as => rw [hsr] at hlen; simp at hlen
    rw [hnil]

/-- `_flatten_node` on the rendering of a well-formed entry produces the
NUL-joined key and `flatLine`. -/
theorem flatten_node_wf {K RLL : Nat} {n : LeafNode} (hwf : NodeWF K RLL n) :
    flatten_node (mkNode RLL n) RLL = .ok (joinSep [0] n.key, flatLine n) := by
  by_cases hRLL : RLL = 0
  · have hnil : n.refs = [] := by
      have := hwf.2.2.2.1
      rw [hRLL] at this
      exact List.length_eq_zero.mp this
    have hitems : mkNode RLL n =
        .ptup [.pstr [], .ptup (n.key.map .pstr), .pstr n.value] := by
      simp [mkNode, hRLL]
    rw [hitems]
    simp only [flatten_node, hRLL, ne_eq, not_true_eq_false, if_false,
      List.length_cons, List.length_nil]
    rw [if_neg (by omega)]
    rw [flattenTail_norefs]
    simp [flatLine, hnil]
  · have hitems : mkNode RLL n =
        .ptup [.pstr [], .ptup (n.key.map .pstr), .pstr n.value,
          .ptup (n.refs.map (fun rl => .ptup (rl.map (fun r => .ptup (r.map .pstr)))))] := by
      simp [mkNode, hRLL]
    rw [hitems]
    simp only [flatten_node, ne_eq, hRLL, not_false_eq_true, if_true,
      List.length_cons, List.length_nil]
    rw [if_neg (by simp)]
    rw [flattenTail_refs]
    simp [flatLine]

theorem serRef_ne_nil {r : List Str} (hne : r ≠ [])
    (hseg : ∀ s ∈ r, s ≠ []) : serRef r ≠ [] := by
  cases r with
  | nil => exact absurd rfl hne
  | cons s rest =>
    cases rest with
    | nil => simpa [serRef, joinSep] using hseg s (by simp)
    | cons s2 rest2 =>
      have := hseg s (by simp)
      simp only [serRef, joinSep]
      cases s with
      | nil => exact absurd rfl this
      | cons b bs => simp

theorem extract_key_prefix :
    ∀ (key : List Str) (tail : List Nat), 1 ≤ key.length →
      (∀ s ∈ key, 0 ∉ s) →
      extract_key key.length (joinSep [0] key ++ 0 :: tail) = .ok (key, tail, false)
  | [], _, h, _ => absurd h (by simp)
  | [s], tail, _, hseg => by
    have h0 : 0 ∉ s := hseg s (by simp)
    show extract_key 1 (s ++ 0 :: tail) = .ok ([s], tail, false)
    simp [extract_key, splitFirst_append h0]
  | s :: s2 :: rest, tail, _, hseg => by
    have h0 : 0 ∉ s := hseg s (by simp)
    have hrec := extract_key_prefix (s2 :: rest) tail (by simp)
      (fun x hx => hseg x (List.mem_cons_of_mem _ hx))
    show extract_key (rest.length + 2)
      (joinSep [0] (s :: s2 :: rest) ++ 0 :: tail) = .ok (s :: s2 :: rest, tail, false)
    have hshape : joinSep [0] (s :: s2 :: rest) ++ 0 :: tail =
        s ++ 0 :: (joinSep [0] (s2 :: rest) ++ 0 :: tail) := by
      simp [joinSep]
    rw [hshape]
    simp only [extract_key, splitFirst_append h0]
    have hlen : (s2 :: rest).length = rest.length + 1 := by simp
    rw [hlen] at hrec
    rw [hrec]

theorem extract_key_full :
    ∀ (r : List Str), 1 ≤ r.length → (∀ s ∈ r, 0 ∉ s) →
      extract_key r.length (serRef r) = .ok (r, [], true)
  | [], h, _ => absurd h (by simp)
  | [s], _, hseg => by
    have h0 : 0 ∉ s := hseg s (by simp)
    show extract_key 1 s = .ok ([s], [], true)
    simp [extract_key, splitFirst_eq_none h0]
  | s :: s2 :: rest, _, hseg => by
    have h0 : 0 ∉ s := hseg s (by simp)
    have hrec := extract_key_full (s2 :: rest) (by simp)
      (fun x hx => hseg x (List.mem_cons_of_mem _ hx))
    show extract_key (rest.length + 2) (serRef (s :: s2 :: rest)) =
      .ok (s :: s2 :: rest, [], true)
    have hshape : serRef (s :: s2 :: rest) = s ++ 0 :: serRef (s2 :: rest) := by
      simp [serRef, joinSep]
    rw [hshape]
    simp only [extract_key, splitFirst_append h0]
    have hlen : (s2 :: rest).length = rest.length + 1 := by simp
    rw [hlen] at hrec
    rw [hrec]

/-- The reference well-formedness carried through the parse lemmas. -/
def RefListWF (K : Nat) (rl : List (List Str)) : Prop :=
  ∀ r ∈ rl, r.length = K ∧ ∀ s ∈ r, s ≠ [] ∧ 0 ∉ s ∧ 10 ∉ s ∧ 13 ∉ s ∧ 9 ∉ s

theorem serRef_not_mem {c : Nat} (hc : c ≠ 0) {r : List Str}
    (hseg : ∀ s ∈ r, c ∉ s) : c ∉ serRef r :=
  not_mem_joinSep (by simpa using hc) hseg

theorem serList_not_mem {c : Nat} (hc0 : c ≠ 0) (hc13 : c ≠ 13)
    {rl : List (List Str)} (hseg : ∀ r ∈ rl, ∀ s ∈ r, c ∉ s) :
    c ∉ serList rl := by
  refine not_mem_joinSep (by simpa using hc13) ?_
  intro x hx
  obtain ⟨r, hr, rfl⟩ := List.mem_map.mp hx
  exact serRef_not_mem hc0 (hseg r hr)

theorem serRefs_not_mem {c : Nat} (hc0 : c ≠ 0) (hc13 : c ≠ 13) (hc9 : c ≠ 9)
    {rls : List (List (List Str))} (hseg : ∀ rl ∈ rls, ∀ r ∈ rl, ∀ s ∈ r, c ∉ s) :
    c ∉ serRefs rls := by
  refine not_mem_joinSep (by simpa using hc9) ?_
  intro x hx
  obtain ⟨rl, hrl, rfl⟩ := List.mem_map.mp hx
  exact serList_not_mem hc0 hc13 (hseg rl hrl)

theorem parseRefList_ser (K : Nat) (hK : 1 ≤ K) :
    ∀ (l : List (List Str)), RefListWF K l →
      ∀ fuel, (serList l).length + 1 ≤ fuel →
      parseRefListF K fuel (serList l) = .ok l
  | [], _, fuel, hfuel => by
    cases fuel with
    | zero => omega
    | succ f => simp [parseRefListF, serList, joinSep]
  | [r], hwf, fuel, hfuel => by
    obtain ⟨hlen, hsegs⟩ := hwf r (by simp)
    have hser : serList [r] = serRef r := by simp [serList, joinSep]
    have hne : serRef r ≠ [] :=
      serRef_ne_nil (by intro hcon; rw [hcon] at hlen; simp at hlen; omega)
        (fun s hs => (hsegs s hs).1)
    have h13 : (13 : Nat) ∉ serRef r :=
      serRef_not_mem (by omega) (fun s hs => (hsegs s hs).2.2.2.1)
    have hkey : extract_key K (serRef r) = .ok (r, [], true) := by
      rw [← hlen]
      exact extract_key_full r (by omega) (fun s hs => (hsegs s hs).2.1)
    cases fuel with
    | zero => omega
    | succ f =>
      rw [hser]
      simp only [parseRefListF, List.isEmpty_eq_true]
      rw [if_neg hne, splitFirst_eq_none h13, hkey]
      simp
  | r :: r2 :: rest, hwf, fuel, hfuel => by
    obtain ⟨hlen, hsegs⟩ := hwf r (by simp)
    have hne : serRef r ≠ [] :=
      serRef_ne_nil (by intro hcon; rw [hcon] at hlen; simp at hlen; omega)
        (fun s hs => (hsegs s hs).1)
    have h13 : (13 : Nat) ∉ serRef r :=
      serRef_not_mem (by omega) (fun s hs => (hsegs s hs).2.2.2.1)
    have hser : serList (r :: r2 :: rest) =
        serRef r ++ 13 :: serList (r2 :: rest) := by
      simp [serList, joinSep]
    have hkey : extract_key K (serRef r) = .ok (r, [], true) := by
      rw [← hlen]
      exact extract_key_full r (by omega) (fun s hs => (hsegs s hs).2.1)
    have hrec := parseRefList_ser K hK (r2 :: rest)
      (fun x hx => hwf x (List.mem_cons_of_mem _ hx))
    cases fuel with
    | zero =>
      rw [hser] at hfuel
      simp at hfuel
    | succ f =>
      rw [hser]
      have hnecat : serRef r ++ 13 :: serList (r2 :: rest) ≠ [] := by
        simp
      simp only [parseRefListF, List.isEmpty_eq_true]
      rw [if_neg hnecat, splitFirst_append h13]
      have hfuel2 : (serList (r2 :: rest)).length + 1 ≤ f := by
        rw [hser] at hfuel
        have hl : 1 ≤ (serRef r).length := by
          cases hsr : serRef r with
          | nil => exact absurd hsr hne
          | cons a as => simp
        simp only [List.length_append, List.length_cons] at hfuel
        omega
      simp [hkey, hrec f hfuel2]

theorem parseRefLists_step_some {K counter : Nat} {area grp rest2 : List Nat}
    (hsp : splitFirst 9 area = some (grp, rest2)) :
    parseRefLists K (counter + 1) area =
      (match parseRefList K grp with
       | .error e => .error e
       | .ok g =>
         match parseRefLists K counter rest2 with
         | .error e => .error e
         | .ok gs => .ok (g :: gs)) := by
  simp only [parseRefLists]
  rw [hsp]

theorem parseRefLists_ser (K : Nat) (hK : 1 ≤ K) :
    ∀ (refs : List (List (List Str))), (∀ rl ∈ refs, RefListWF K rl) →
      refs ≠ [] →
      parseRefLists K refs.length (serRefs refs) = .ok refs
  | [], _, hne => absurd rfl hne
  | [l], hwf, _ => by
    have hser : serRefs [l] = serList l := by simp [serRefs, joinSep]
    have h9 : (9 : Nat) ∉ serList l :=
      serList_not_mem (by omega) (by omega)
        (fun r hr s hs => ((hwf l (by simp)) r hr).2 s hs |>.2.2.2.2)
    show parseRefLists K 1 (serRefs [l]) = .ok [l]
    rw [hser]
    simp only [parseRefLists]
    rw [splitFirst_eq_none h9]
    have hgrp : parseRefList K (serList l) = .ok l := by
      unfold parseRefList
      exact parseRefList_ser K hK l (hwf l (by simp)) _ (Nat.le_refl _)
    simp [hgrp]
  | l :: l2 :: rest, hwf, _ => by
    have h9 : (9 : Nat) ∉ serList l :=
      serList_not_mem (by omega) (by omega)
        (fun r hr s hs => ((hwf l (by simp)) r hr).2 s hs |>.2.2.2.2)
    have hser : serRefs (l :: l2 :: rest) =
        serList l ++ 9 :: serRefs (l2 :: rest) := by
      simp [serRefs, joinSep]
    have hrec := parseRefLists_ser K hK (l2 :: rest)
      (fun x hx => hwf x (List.mem_cons_of_mem _ hx)) (by simp)
    show parseRefLists K (rest.length + 2) (serRefs (l :: l2 :: rest)) =
      .ok (l :: l2 :: rest)
    rw [hser, parseRefLists_step_some (splitFirst_append h9 (serRefs (l2 :: rest)))]
    have hgrp : parseRefList K (serList l) = .ok l := by
      unfold parseRefList
      exact parseRefList_ser K hK l (hwf l (by simp)) _ (Nat.le_refl _)
    have hlen2 : (l2 :: rest).length = rest.length + 1 := by simp
    rw [hlen2] at hrec
    simp [hgrp, hrec]

/-- The bytes of a node line before the terminating LF. -/
def lineBody (n : LeafNode) : List Nat :=
  joinSep [0] n.key ++ [0] ++ serRefs n.refs ++ [0] ++ n.value

theorem flatLine_eq (n : LeafNode) : flatLine n = lineBody n ++ [10] := by
  simp [flatLine, lineBody]

theorem lineBody_ne_nil (n : LeafNode) : lineBody n ≠ [] := by
  intro h
  simp [lineBody] at h

theorem lineBody_no_lf {K RLL : Nat} {n : LeafNode} (hwf : NodeWF K RLL n) :
    (10 : Nat) ∉ lineBody n := by
  obtain ⟨hkey, hsegs, hval, hrefs, hwfr⟩ := hwf
  have h1 : (10 : Nat) ∉ joinSep [0] n.key :=
    not_mem_joinSep (by simp) (fun s hs => (hsegs s hs).2)
  have h2 : (10 : Nat) ∉ serRefs n.refs :=
    serRefs_not_mem (by omega) (by omega) (by omega)
      (fun rl hrl r hr s hs => (((hwfr rl hrl) r hr).2 s hs).2.2.1)
  intro hmem
  simp only [lineBody] at hmem
  rcases List.mem_append.mp hmem with h | h
  · rcases List.mem_append.mp h with h | h
    · rcases List.mem_append.mp h with h | h
      · rcases List.mem_append.mp h with h | h
        · exact h1 h
        · simp at h
      · exact h2 h
    · simp at h
  · exact hval.2 h

theorem parse_entry_line_flat {K RLL : Nat} {n : LeafNode} (hK : 1 ≤ K)
    (hwf : NodeWF K RLL n) :
    parse_entry_line K RLL (lineBody n) = .ok (leafOut n) := by
  obtain ⟨hkey, hsegs, hval, hrefs, hwfr⟩ := hwf
  have hshape : lineBody n =
      joinSep [0] n.key ++ 0 :: (serRefs n.refs ++ 0 :: n.value) := by
    simp [lineBody]
  have hextract : extract_key K
      (joinSep [0] n.key ++ 0 :: (serRefs n.refs ++ 0 :: n.value)) =
      .ok (n.key, serRefs n.refs ++ 0 :: n.value, false) := by
    rw [← hkey]
    exact extract_key_prefix n.key _ (by omega) (fun s hs => (hsegs s hs).1)
  have hsplit : splitLast 0 (serRefs n.refs ++ 0 :: n.value) =
      some (serRefs n.refs, n.value) := splitLast_append hval.1
  rw [hshape]
  simp only [parse_entry_line]
  rw [hextract]
  simp only []
  rw [hsplit]
  by_cases hRLL : RLL = 0
  · have hrnil : n.refs = [] := by
      rw [hRLL] at hrefs
      exact List.length_eq_zero.mp hrefs
    simp [hRLL, hrnil, serRefs, joinSep, leafOut]
  · simp only [ne_eq, hRLL, not_false_eq_true, if_true]
    have hrne : n.refs ≠ [] := by
      intro hcon
      rw [hcon] at hrefs
      simp at hrefs
      omega
    have hlists := parseRefLists_ser K hK n.refs
      (fun rl hrl r hr => (hwfr rl hrl) r hr) hrne
    rw [hrefs] at hlists
    rw [hlists]
    simp [leafOut]

theorem takeLine_append {line : List Nat} (h : 10 ∉ line) (rest : List Nat) :
    takeLine (line ++ 10 :: rest) = (line, rest) := by
  simp [takeLine, splitFirst_append h]

theorem parseAllF_nil (K RLL fuel : Nat) (hf : Bool) (acc : List ParsedEntry) :
    parseAllF K RLL fuel hf acc [] = .ok acc := by
  cases fuel <;> rfl

theorem parseAllF_entry_step (K RLL fuel : Nat) (acc : List ParsedEntry)
    {line : List Nat} (hlf : 10 ∉ line) (hne : line ≠ []) (rest : List Nat) :
    parseAllF K RLL (fuel + 1) true acc (line ++ 10 :: rest) =
      (match parse_entry_line K RLL line with
       | .error e => .error e
       | .ok en => parseAllF K RLL fuel true (acc ++ [en]) rest) := by
  cases line with
  | nil => exact absurd rfl hne
  | cons b bs =>
    have hstep : takeLine (b :: bs ++ 10 :: rest) = (b :: bs, rest) :=
      takeLine_append hlf rest
    rw [List.cons_append] at hstep ⊢
    simp only [parseAllF]
    rw [hstep]
    simp

theorem parseAllF_header_step (K RLL fuel : Nat) (acc : List ParsedEntry)
    {line : List Nat} (hlf : 10 ∉ line) (hne : line ≠ [])
    (hok : header_ok line = true) (rest : List Nat) :
    parseAllF K RLL (fuel + 1) false acc (line ++ 10 :: rest) =
      parseAllF K RLL fuel true acc rest := by
  cases line with
  | nil => exact absurd rfl hne
  | cons b bs =>
    have hstep : takeLine (b :: bs ++ 10 :: rest) = (b :: bs, rest) :=
      takeLine_append hlf rest
    rw [List.cons_append] at hstep ⊢
    simp only [parseAllF]
    rw [hstep]
    simp [hok]

theorem parseAll_nodes {K RLL : Nat} (hK : 1 ≤ K) :
    ∀ (nodes : List LeafNode), (∀ n ∈ nodes, NodeWF K RLL n) →
      ∀ fuel (acc : List ParsedEntry),
        ((nodes.map flatLine).flatten).length + 1 ≤ fuel →
        parseAllF K RLL fuel true acc ((nodes.map flatLine).flatten) =
          .ok (acc ++ nodes.map leafOut)
  | [], _, fuel, acc, _ => by
    simp [parseAllF_nil]
  | n :: rest, hwf, fuel, acc, hfuel => by
    have hjoin : ((n :: rest).map flatLine).flatten =
        lineBody n ++ 10 :: (rest.map flatLine).flatten := by
      simp [flatLine_eq n]
    cases fuel with
    | zero =>
      rw [hjoin] at hfuel
      simp at hfuel
    | succ f =>
      rw [hjoin, parseAllF_entry_step K RLL f acc
        (lineBody_no_lf (hwf n (by simp))) (lineBody_ne_nil n) _]
      rw [parse_entry_line_flat hK (hwf n (by simp))]
      have hfuel2 : ((rest.map flatLine).flatten).length + 1 ≤ f := by
        rw [hjoin] at hfuel
        simp only [List.length_append, List.length_cons] at hfuel
        omega
      have hrec := parseAll_nodes hK rest
        (fun x hx => hwf x (List.mem_cons_of_mem _ hx)) f (acc ++ [leafOut n]) hfuel2
      simp [hrec]

/-- Parsing the serialisation of well-formed entries after the
`type=leaf` header recovers exactly the original entries in order. -/
theorem parse_leaf_lines_roundtrip {K RLL : Nat} (hK : 1 ≤ K)
    (nodes : List LeafNode) (hwf : ∀ n ∈ nodes, NodeWF K RLL n) :
    parse_leaf_lines (typeLeafLine ++ (nodes.map flatLine).flatten) K RLL =
      .ok (nodes.map leafOut) := by
  have h10 : (10 : Nat) ∉ typeLeafNats := by decide
  have hne : typeLeafNats ≠ [] := by decide
  have hok : header_ok typeLeafNats = true := by decide
  have hshape : typeLeafLine ++ (nodes.map flatLine).flatten =
      typeLeafNats ++ 10 :: (nodes.map flatLine).flatten := by
    simp [typeLeafLine]
  unfold parse_leaf_lines
  rw [hshape]
  have hlen : (typeLeafNats ++ 10 :: (nodes.map flatLine).flatten).length + 1 =
      (((nodes.map flatLine).flatten).length + 10) + 1 := by
    simp [typeLeafNats]
  rw [hlen, parseAllF_header_step _ _ _ _ h10 hne hok]
  have hall := parseAll_nodes hK nodes hwf
    (((nodes.map flatLine).flatten).length + 10) [] (by omega)
  rw [hall]
  simp

/-! ## Error characterisations used for the claims -/

theorem get_next_error {r : List Nat} {e : GErr} (h : get_next r = .error e) :
    e = .noChars ∨ e = .noNul := by
  unfold get_next at h
  cases r with
  | nil =>
    simp only [Except.error.injEq] at h
    exact Or.inl h.symm
  | cons a as =>
    cases hsp : splitFirst 0 (a :: as) with
    | none =>
      rw [hsp] at h
      simp only [Except.error.injEq] at h
      exact Or.inr h.symm
    | some p =>
      obtain ⟨x, y⟩ := p
      rw [hsp] at h
      simp at h

theorem mapME_error {α β : Type} {f : α → Except FErr β} :
    ∀ {l : List α} {e : FErr}, mapME f l = .error e → ∃ x ∈ l, f x = .error e := by
  intro l
  induction l with
  | nil => intro e h; simp [mapME] at h
  | cons x xs ih =>
    intro e h
    simp only [mapME] at h
    cases hf : f x with
    | error e2 =>
      rw [hf] at h
      simp only [Except.error.injEq] at h
      exact ⟨x, by simp, by rw [hf, h]⟩
    | ok y =>
      rw [hf] at h
      cases hrest : mapME f xs with
      | error e2 =>
        rw [hrest] at h
        simp only [Except.error.injEq] at h
        obtain ⟨z, hz, hze⟩ := ih hrest
        exact ⟨z, List.mem_cons_of_mem _ hz, by rw [hze, h]⟩
      | ok ys =>
        rw [hrest] at h
        simp at h

theorem joinKeyObj_error {x : PyObj} {e : FErr} (h : joinKeyObj x = .error e) :
    e = .keyJoin := by
  cases x with
  | pstr s => simp [joinKeyObj] at h
  | ptup ts =>
    simp only [joinKeyObj] at h
    cases hm : mapME (fun t => match t with
        | .pstr s => Except.ok s
        | .ptup _ => Except.error FErr.keyJoin) ts with
    | error e2 =>
      rw [hm] at h
      simp only [Except.error.injEq] at h
      obtain ⟨z, _, hz⟩ := mapME_error hm
      cases z with
      | pstr s => simp at hz
      | ptup zs =>
        simp only [Except.error.injEq] at hz
        rw [← h, ← hz]
    | ok segs =>
      rw [hm] at h
      simp at h

theorem refLenOfRef_error {x : PyObj} {e : FErr} (h : refLenOfRef x = .error e) :
    e = .refType ∨ e = .refBitType := by
  cases x with
  | pstr s =>
    simp only [refLenOfRef, Except.error.injEq] at h
    exact Or.inl h.symm
  | ptup bits =>
    simp only [refLenOfRef] at h
    cases hm : mapME (fun b => match b with
        | .pstr s => Except.ok s
        | .ptup _ => Except.error FErr.refBitType) bits with
    | error e2 =>
      rw [hm] at h
      simp only [Except.error.injEq] at h
      obtain ⟨z, _, hz⟩ := mapME_error hm
      cases z with
      | pstr s => simp at hz
      | ptup zs =>
        simp only [Except.error.injEq] at hz
        right
        rw [← h, ← hz]
    | ok segs =>
      rw [hm] at h
      simp at h

theorem refLenOfList_error {x : PyObj} {e : FErr} (h : refLenOfList x = .error e) :
    e = .refType ∨ e = .refBitType := by
  cases x with
  | pstr s =>
    cases s with
    | nil => simp [refLenOfList] at h
    | cons a as =>
      simp only [refLenOfList, Except.error.injEq] at h
      exact Or.inl h.symm
  | ptup refs =>
    simp only [refLenOfList] at h
    cases hm : mapME refLenOfRef refs with
    | error e2 =>
      rw [hm] at h
      simp only [Except.error.injEq] at h
      obtain ⟨z, _, hz⟩ := mapME_error hm
      rw [← h]
      exact refLenOfRef_error hz
    | ok pairs =>
      rw [hm] at h
      simp at h

theorem refsLenCalc_error {x : PyObj} {e : FErr} (h : refsLenCalc x = .error e) :
    e = .refType ∨ e = .refBitType := by
  cases x with
  | pstr s =>
    cases s with
    | nil => simp [refsLenCalc] at h
    | cons a as =>
      simp only [refsLenCalc, Except.error.injEq] at h
      exact Or.inl h.symm
  | ptup rls =>
    simp only [refsLenCalc] at h
    cases hm : mapME refLenOfList rls with
    | error e2 =>
      rw [hm] at h
      simp only [Except.error.injEq] at h
      obtain ⟨z, _, hz⟩ := mapME_error hm
      rw [← h]
      exact refLenOfList_error hz
    | ok pairs =>
      rw [hm] at h
      simp at h

/-- The body of `_flatten_node` after the arity checks can fail only with
type errors, never with the two arity errors. -/
theorem flattenTail_no_arity (items : List PyObj) (hr : Bool) :
    flattenTail items hr ≠ .error .arityWithRefs ∧
    flattenTail items hr ≠ .error .arityNoRefs := by
  unfold flattenTail
  cases hj : joinKeyObj (items.getD 1 (.pstr [])) with
  | error e =>
    have he := joinKeyObj_error hj
    subst he
    constructor <;> simp
  | ok string_key =>
    cases hrc : (if hr then refsLenCalc (items.getD 3 (.pstr [])) else .ok (0, [])) with
    | error e =>
      have he : e = .refType ∨ e = .refBitType := by
        by_cases hb : hr
        · rw [if_pos hb] at hrc
          exact refsLenCalc_error hrc
        · rw [if_neg hb] at hrc
          simp at hrc
      constructor <;> (rcases he with rfl | rfl <;> simp)
    | ok p =>
      obtain ⟨refs_len, rstruct⟩ := p
      cases hv : items.getD 2 (.pstr []) with
      | pstr v => constructor <;> simp
      | ptup zs => constructor <;> simp

/-! ## Concrete dirstate rows used to exercise the parser -/

deriving instance DecidableEq for Except

set_option synthInstance.maxSize 1024

/-- Unfolding of `flatten_node` on a tuple node. -/
theorem flatten_node_ptup (items : List PyObj) (rl : Nat) :
    flatten_node (.ptup items) rl =
      if rl ≠ 0 then
        (if items.length ≠ 4 then .error .arityWithRefs
         else flattenTail items true)
      else
        (if items.length < 3 then .error .arityNoRefs
         else flattenTail items false) := rfl

/-- One serialised dirstate row for a single tree: dirname, name `n`,
file id `i`, minikind `f`, empty fingerprint, size `0`, executable `n`,
empty info, trailing LF; every field NUL-terminated. -/
def dsRow (d : List Nat) : List Nat :=
  d ++ [0, 110, 0, 105, 0, 102, 0, 0, 48, 0, 110, 0, 0, 10, 0]

/-- The entry `dsRow d` parses to. -/
def dsEntry (d : List Nat) : Entry :=
  ((d, [110], [105]), [⟨[102], [], 0, false, []⟩])

/-- A buffer of four root rows behind the leading empty field. -/
def dsBuf4 : List Nat := 0 :: (dsRow [] ++ dsRow [] ++ dsRow [] ++ dsRow [])

/-- `dsRow []` truncated just before its trailing field: the last row is
missing its final line feed (and the terminator after it). -/
def dsRowNoLF : List Nat := [0, 110, 0, 105, 0, 102, 0, 0, 48, 0, 110, 0, 0]

/-- `dsRow []` whose trailing field holds `x` instead of the line feed. -/
def dsRowBadTrail : List Nat := dsRowNoLF ++ [120, 0]

/-- Blocks produced from one root row behind the leading empty field. -/
def dsBlocks1 : List ((List Nat) × List Entry) := [([], [dsEntry []]), ([], [])]

/-- Blocks produced from a row for dirname `a` followed by a root row:
both rows open fresh blocks after the synthetic pair, so the root row
lands in block 3, not block 0. -/
def dsBlocksA : List ((List Nat) × List Entry) :=
  [([], []), ([], []), ([97], [dsEntry [97]]), ([], [dsEntry []])]

/-- Mapping `_flatten_node` over a node list renders every well-formed
node to its key and line. -/
theorem mapME_flatten {K RLL : Nat} :
    ∀ (nodes : List LeafNode), (∀ n ∈ nodes, NodeWF K RLL n) →
      mapME (fun n => flatten_node (mkNode RLL n) RLL) nodes =
        .ok (nodes.map (fun n => (joinSep [0] n.key, flatLine n))) := by
  intro nodes
  induction nodes with
  | nil => intro _; rfl
  | cons n rest ih =>
    intro hwf
    simp only [mapME, flatten_node_wf (hwf n (by simp)),
      ih (fun x hx => hwf x (List.mem_cons_of_mem _ hx)), List.map_cons]

/-! ## The claims -/

/-- Claim C1: for NUL-free plain byte strings `p` and `q`, `cmp_by_dirs p q`
equals (so in particular agrees in sign with) the lexicographic comparison
of the component lists obtained by splitting on the slash, and
`cmp_by_dirs p q = -(cmp_by_dirs q p)`. -/
theorem c1_cmp_by_dirs_split_lex (p q : Str) (_hp : 0 ∉ p) (_hq : 0 ∉ q) :
    cmp_by_dirs p q = lexCmpList (splitSlash p) (splitSlash q) ∧
    cmp_by_dirs p q = -cmp_by_dirs q p :=
  ⟨cmp_by_dirs_eq_lex p q, cmp_by_dirs_antisym p q⟩

theorem c1_witness :
    cmp_by_dirs [97] [97, 47, 98] =
      lexCmpList (splitSlash [97]) (splitSlash [97, 47, 98]) ∧
    cmp_by_dirs [97] [97, 47, 98] = -cmp_by_dirs [97, 47, 98] [97] :=
  c1_cmp_by_dirs_split_lex [97] [97, 47, 98] (by decide) (by decide)

/-- Claim C2, counterexample: `cmp_by_dirs` on the bytes of `a-b` and
`a/b` returns `1`, not a negative value: the middle calibration inequality
fails on the code. -/
theorem c2_counterexample :
    cmp_by_dirs [97, 45, 98] [97, 47, 98] = 1 ∧
    ¬ cmp_by_dirs [97, 45, 98] [97, 47, 98] < 0 := by decide

/-- Claim C2, amended: `cmp_by_dirs` orders the calibration paths as
`a` before `a/b` before `a-b` (the slash sorts low, grouping directories
first); the order `a` before `a-b` before `a/b` claimed by the spec is the
one realised by `cmp_path_by_dirblock`. -/
theorem c2_amended :
    cmp_by_dirs [97] [97, 45, 98] < 0 ∧
    cmp_by_dirs [97] [97, 47, 98] < 0 ∧
    cmp_by_dirs [97, 47, 98] [97, 45, 98] < 0 ∧
    cmp_path_by_dirblock [97] [97, 45, 98] < 0 ∧
    cmp_path_by_dirblock [97, 45, 98] [97, 47, 98] < 0 ∧
    cmp_path_by_dirblock [97] [97, 47, 98] < 0 := by decide

/-- Claim C3, counterexample: the single node with key tuple `("a\nb",)`
and value `v`, no reference lists, is well formed in the claim's sense
(one plain-string key segment, a plain-string value), `_flatten_node`
serialises it, yet parsing the serialisation behind the header fails
instead of returning the node: a line feed inside a key breaks the round
trip, so the claim's shape conditions are not sufficient. -/
theorem c3_counterexample :
    flatten_node (mkNode 0 ⟨[[97, 10, 98]], [118], []⟩) 0 =
      .ok ([97, 10, 98], [97, 10, 98, 0, 0, 118, 10]) ∧
    parse_leaf_lines (typeLeafLine ++ [97, 10, 98, 0, 0, 118, 10]) 1 0 =
      .error .noValueArea := by decide

/-- Claim C3, amended: the round trip holds for `NodeWF`-well-formed node
sets, which strengthen the claim's shape conditions by separator freedom:
key segments and values free of NUL and LF, reference key segments
additionally nonempty and free of CR and TAB.  Flattening every node
succeeds, and parsing the concatenated lines behind the `type=leaf` header
returns exactly the original ordered entries (with `ref_list_length = 0`,
`NodeWF` forces every reference tuple empty). -/
theorem c3_amended (K RLL : Nat) (nodes : List LeafNode) (hK : 1 ≤ K)
    (hwf : ∀ n ∈ nodes, NodeWF K RLL n) :
    mapME (fun n => flatten_node (mkNode RLL n) RLL) nodes =
      .ok (nodes.map (fun n => (joinSep [0] n.key, flatLine n))) ∧
    parse_leaf_lines (typeLeafLine ++ (nodes.map flatLine).flatten) K RLL =
      .ok (nodes.map leafOut) :=
  ⟨mapME_flatten nodes hwf, parse_leaf_lines_roundtrip hK nodes hwf⟩

theorem c3_witness :
    mapME (fun n => flatten_node (mkNode 1 n) 1)
        [LeafNode.mk [[107]] [118] [[[[97]]]]] =
      .ok ([LeafNode.mk [[107]] [118] [[[[97]]]]].map
        (fun n => (joinSep [0] n.key, flatLine n))) ∧
    parse_leaf_lines
        (typeLeafLine ++
          ([LeafNode.mk [[107]] [118] [[[[97]]]]].map flatLine).flatten) 1 1 =
      .ok ([LeafNode.mk [[107]] [118] [[[[97]]]]].map leafOut) :=
  c3_amended 1 1 [LeafNode.mk [[107]] [118] [[[[97]]]]] (by decide) (by decide)

/-- Claim C4: `_parse_dirblocks` succeeds only when the number of parsed
rows equals the caller-supplied expected count — whenever it returns
blocks, their total row count is exactly `expected` — and on the claim's
corruption scenario (four parsable rows, expected count five) it fails
with the count-mismatch error rather than truncating or padding. -/
theorem c4_count_match_required :
    (∀ (num_trees expected : Nat) (text : List Nat) blocks,
      parse_dirblocks num_trees expected text = .ok blocks →
      rowsOf blocks = expected) ∧
    parse_dirblocks 1 5 dsBuf4 = .error .countMismatch := by
  constructor
  · intro num_trees expected text blocks h
    unfold parse_dirblocks at h
    cases hri : reader_init text with
    | error e => rw [hri] at h; simp at h
    | ok r =>
      rw [hri] at h
      simp only at h
      cases hlp : parseLoopF num_trees text.length [] [] [] 0 r with
      | error e => rw [hlp] at h; simp at h
      | ok res =>
        obtain ⟨b0, ex, cnt⟩ := res
        rw [hlp] at h
        simp only at h
        by_cases hcnt : cnt = expected
        · rw [if_pos hcnt] at h
          simp only [Except.ok.injEq] at h
          subst h
          have hc := parseLoopF_count num_trees text.length [] [] [] 0 r
            b0 ex cnt hlp
          simp only [rowsOf, List.map_cons, List.sum_cons, List.map_nil,
            List.sum_nil, List.length_nil] at hc ⊢
          omega
        · rw [if_neg hcnt] at h
          simp at h
  · decide

theorem c4_witness :
    parse_dirblocks 1 1 (0 :: dsRow []) = .ok dsBlocks1 ∧
    rowsOf dsBlocks1 = 1 :=
  ⟨by decide, c4_count_match_required.1 1 1 (0 :: dsRow []) dsBlocks1 (by decide)⟩

/-- Claim C5, counterexample: on the sorted singleton `["/b"]` with target
`"b"`, the target occurs zero times in the list, yet
`bisect_path_right - bisect_path_left = 1`: `_cmp_path_by_dirblock`
identifies the distinct strings `/b` and `b` (both parse as dirname-less
basename `b`), so the claimed count-of-occurrences reading is false. -/
theorem c5_counterexample :
    sortedByDirblock [[47, 98]] ∧
    List.count ([98] : Str) [[47, 98]] = 0 ∧
    bisect_path_left [[47, 98]] [98] = 0 ∧
    bisect_path_right [[47, 98]] [98] = 1 := by decide

/-- Claim C5, amended: on a `sortedByDirblock` list, left bisection is at
most right bisection, inserting the target at either index preserves
sortedness, and the index difference counts the elements comparing equal
to the target under `_cmp_path_by_dirblock` (not its occurrences as a
string). -/
theorem c5_amended (S : List Str) (t : Str) (hs : sortedByDirblock S) :
    bisect_path_left S t ≤ bisect_path_right S t ∧
    sortedByDirblock (List.insertIdx (bisect_path_left S t) t S) ∧
    sortedByDirblock (List.insertIdx (bisect_path_right S t) t S) ∧
    bisect_path_right S t - bisect_path_left S t =
      (S.filter (fun x => cmp_path_by_dirblock x t == 0)).length := by
  obtain ⟨hLn, hLlt, hLge⟩ := bisect_path_left_spec S t hs
  obtain ⟨hRn, hRle, hRgt⟩ := bisect_path_right_spec S t hs
  have hLR : bisect_path_left S t ≤ bisect_path_right S t := by
    by_contra hcon
    push_neg at hcon
    have hRn2 : bisect_path_right S t < S.length := lt_of_lt_of_le hcon hLn
    have h1 := hLlt _ hRn2 hcon
    have h2 := hRgt _ hRn2 (Nat.le_refl _)
    omega
  refine ⟨hLR, ?_, ?_, ?_⟩
  · apply sorted_insertIdx hs hLn
    · intro i hin hlt
      have := hLlt i hin hlt
      unfold dbLE
      omega
    · intro i hin hge
      have h1 := hLge i hin hge
      have h2 := cmp_path_antisym t (S.getD i [])
      unfold dbLE
      omega
  · apply sorted_insertIdx hs hRn
    · intro i hin hlt
      have := hRle i hin hlt
      unfold dbLE
      omega
    · intro i hin hge
      have h1 := hRgt i hin hge
      have h2 := cmp_path_antisym t (S.getD i [])
      unfold dbLE
      omega
  · refine (length_filter_span _ S (bisect_path_left S t)
      (bisect_path_right S t) hLR hRn ?_ ?_ ?_).symm
    · intro i hin hlt
      have := hLlt i hin hlt
      simp only [beq_eq_false_iff_ne, ne_eq]
      omega
    · intro i hin hge hlt
      have h1 := hLge i hin hge
      have h2 := hRle i hin hlt
      simp only [beq_iff_eq]
      omega
    · intro i hin hge
      have := hRgt i hin hge
      simp only [beq_eq_false_iff_ne, ne_eq]
      omega

theorem c5_witness :
    bisect_path_left [[97], [98]] [97] ≤ bisect_path_right [[97], [98]] [97] ∧
    sortedByDirblock
      (List.insertIdx (bisect_path_left [[97], [98]] [97]) [97] [[97], [98]]) ∧
    sortedByDirblock
      (List.insertIdx (bisect_path_right [[97], [98]] [97]) [97] [[97], [98]]) ∧
    bisect_path_right [[97], [98]] [97] - bisect_path_left [[97], [98]] [97] =
      (([[97], [98]] : List Str).filter
        (fun x => cmp_path_by_dirblock x [97] == 0)).length :=
  c5_amended [[97], [98]] [97] (by decide)

/-- Claim C6: the trailing-field test of `_get_entry` accepts a field iff
it is exactly the single line-feed byte; a complete row parses, a row
truncated before its final line feed aborts (here while fetching the
missing field), and a row whose trailing field holds any other byte aborts
with the malformed-record error — never a silent short read. -/
theorem c6_trailing_byte_check :
    (∀ f : List Nat, check_trailing f = .ok () ↔ f = [10]) ∧
    get_entry 1 [] (dsRow []) = .ok (((dsEntry [], [], false)), []) ∧
    get_entry 1 [] dsRowNoLF = .error .noChars ∧
    get_entry 1 [] dsRowBadTrail = .error .badTrailing := by
  refine ⟨?_, by decide, by decide, by decide⟩
  intro f
  unfold check_trailing
  constructor
  · intro h
    by_cases hc : f.length = 1 ∧ f.headD 0 = 10
    · obtain ⟨h1, h2⟩ := hc
      cases f with
      | nil => simp at h1
      | cons a as =>
        cases as with
        | nil =>
          simp only [List.headD_cons] at h2
          rw [h2]
        | cons b bs => simp at h1
    · rw [if_neg hc] at h
      simp at h
  · rintro rfl
    simp

theorem c6_witness : check_trailing [10] = .ok () :=
  (c6_trailing_byte_check.1 [10]).mpr rfl

/-- Claim C7: the non-empty-first-field guard of `Reader._init` is dead
code — its condition demands a nonzero first byte of a zero-length field,
which no field satisfies — so `_init` never raises the claimed error; on
the buffer `x NUL a`, whose first field is the non-empty `x`, it succeeds
and leaves the cursor after the field instead of failing. -/
theorem c7_init_dead_check :
    (∀ text : List Nat, reader_init text ≠ .error .firstNonEmpty) ∧
    reader_init [120, 0, 97] = .ok [97] := by
  constructor
  · intro text hcon
    unfold reader_init at hcon
    cases hg : get_next text with
    | error e =>
      rw [hg] at hcon
      simp only [Except.error.injEq] at hcon
      rcases get_next_error hg with rfl | rfl <;> simp at hcon
    | ok p =>
      obtain ⟨f, rest⟩ := p
      rw [hg] at hcon
      simp only at hcon
      by_cases hc : f.headD 0 ≠ 0 ∧ f.length = 0
      · obtain ⟨h1, h2⟩ := hc
        rw [List.length_eq_zero.mp h2] at h1
        simp at h1
      · rw [if_neg hc] at hcon
        simp at hcon
  · decide

theorem c7_witness : reader_init [120, 0, 97] ≠ .error .firstNonEmpty :=
  c7_init_dead_check.1 [120, 0, 97]

/-- Claim C8: the header test compares only `len(line)` bytes, so the
proper prefix `type` passes it and a buffer headed by the line `type`
parses successfully, contradicting the exact-match requirement; the exact
header is accepted too. -/
theorem c8_header_prefix_ok :
    header_ok [116, 121, 112, 101] = true ∧
    parse_leaf_lines [116, 121, 112, 101, 10] 1 0 = .ok [] ∧
    header_ok typeLeafNats = true ∧
    parse_leaf_lines typeLeafLine 1 0 = .ok [] := by decide

/-- Claim C9, counterexample: with reference lists disabled,
`_flatten_node` accepts the 5-tuple
`(index, ("k",), "v", extra, extra)` and serialises it — the no-refs guard
is `len(node) < 3`, not an exact-arity test, so the claim's example of a
rejected 5-tuple in fact succeeds. -/
theorem c9_counterexample :
    flatten_node
        (.ptup [.pstr [], .ptup [.pstr [107]], .pstr [118], .pstr [], .pstr []])
        0 =
      .ok ([107], [107, 0, 0, 118, 10]) := by decide

/-- Claim C9, amended: `_flatten_node` checks arity strictly only in the
reference-list mode, where exactly tuples of length 4 escape the error; in
the no-refs mode the error fires exactly for lengths below 3, longer
tuples being accepted with their extra components ignored. -/
theorem c9_amended (items : List PyObj) (rl : Nat) :
    (flatten_node (.ptup items) rl = .error .arityWithRefs ↔
      rl ≠ 0 ∧ items.length ≠ 4) ∧
    (flatten_node (.ptup items) rl = .error .arityNoRefs ↔
      rl = 0 ∧ items.length < 3) := by
  constructor
  · constructor
    · intro h
      rw [flatten_node_ptup] at h
      by_cases hrl : rl ≠ 0
      · rw [if_pos hrl] at h
        by_cases hlen : items.length ≠ 4
        · exact ⟨hrl, hlen⟩
        · rw [if_neg hlen] at h
          exact absurd h (flattenTail_no_arity items true).1
      · rw [if_neg hrl] at h
        by_cases hlen : items.length < 3
        · rw [if_pos hlen] at h
          simp at h
        · rw [if_neg hlen] at h
          exact absurd h (flattenTail_no_arity items false).1
    · rintro ⟨hrl, hlen⟩
      rw [flatten_node_ptup, if_pos hrl, if_pos hlen]
  · constructor
    · intro h
      rw [flatten_node_ptup] at h
      by_cases hrl : rl ≠ 0
      · rw [if_pos hrl] at h
        by_cases hlen : items.length ≠ 4
        · rw [if_pos hlen] at h
          simp at h
        · rw [if_neg hlen] at h
          exact absurd h (flattenTail_no_arity items true).2
      · push_neg at hrl
        rw [if_neg (by simpa using hrl)] at h
        by_cases hlen : items.length < 3
        · exact ⟨hrl, hlen⟩
        · rw [if_neg hlen] at h
          exact absurd h (flattenTail_no_arity items false).2
    · rintro ⟨hrl, hlen⟩
      rw [flatten_node_ptup, if_neg (by simp [hrl]), if_pos hlen]

theorem c9_witness :
    (flatten_node (.ptup [PyObj.pstr [], .pstr []]) 0 = .error .arityWithRefs ↔
      (0 : Nat) ≠ 0 ∧ ([PyObj.pstr [], .pstr []]).length ≠ 4) ∧
    (flatten_node (.ptup [PyObj.pstr [], .pstr []]) 0 = .error .arityNoRefs ↔
      (0 : Nat) = 0 ∧ ([PyObj.pstr [], .pstr []]).length < 3) :=
  c9_amended [PyObj.pstr [], .pstr []] 0

/-- Claim C10, counterexample: parsing a row for dirname `a` followed by a
root row (empty dirname) stores the root row in block 3, not block 0: any
dirname change — also back to the empty one — pushes a fresh block, so
"every empty-dirname row is appended to block 0" fails; block 0 holds only
the rows before the first dirname change. -/
theorem c10_counterexample :
    parse_dirblocks 1 2 (0 :: (dsRow [97] ++ dsRow [])) = .ok dsBlocksA ∧
    (dsBlocksA.getD 0 ([], [])).2 = [] ∧
    (∃ e ∈ (dsBlocksA.getD 3 ([], [])).2, e.1.1 = []) := by decide

/-- Claim C10, amended: every successful `_parse_dirblocks` run returns at
least two blocks, blocks 0 and 1 both carrying the empty dirname, block 1
always empty of rows, and every row of block 0 has the empty dirname (the
converse direction of the claim — empty-dirname rows landing only in
block 0 — does not hold). -/
theorem c10_amended (num_trees expected : Nat) (text : List Nat)
    (bs : List ((List Nat) × List Entry))
    (h : parse_dirblocks num_trees expected text = .ok bs) :
    ∃ b0 extra, bs = ([], b0) :: ([], []) :: extra ∧ 2 ≤ bs.length ∧
      (∀ e ∈ b0, e.1.1 = []) ∧ (bs.getD 1 ([], [])).2 = [] := by
  unfold parse_dirblocks at h
  cases hri : reader_init text with
  | error e => rw [hri] at h; simp at h
  | ok r =>
    rw [hri] at h
    simp only at h
    cases hlp : parseLoopF num_trees text.length [] [] [] 0 r with
    | error e => rw [hlp] at h; simp at h
    | ok res =>
      obtain ⟨b0, ex, cnt⟩ := res
      rw [hlp] at h
      simp only at h
      by_cases hcnt : cnt = expected
      · rw [if_pos hcnt] at h
        simp only [Except.ok.injEq] at h
        subst h
        refine ⟨b0, ex, rfl, by simp, ?_, rfl⟩
        exact parseLoopF_block0 num_trees text.length [] [] [] 0 r b0 ex cnt
          hlp (fun _ => rfl) (by simp)
      · rw [if_neg hcnt] at h
        simp at h

theorem c10_witness :
    ∃ b0 extra, dsBlocks1 = ([], b0) :: ([], []) :: extra ∧
      2 ≤ dsBlocks1.length ∧ (∀ e ∈ b0, e.1.1 = []) ∧
      (dsBlocks1.getD 1 ([], [])).2 = [] :=
  c10_amended 1 1 (0 :: dsRow []) dsBlocks1 (by decide)

end Bzr
